import Mathlib

/-!
Verification of the Wordle solver core (src/guesser.rs): feedback-mask
computation (`Correctness.compute`), candidate plausibility checking
(`Guess.matches`), and the six-round elimination loop (`Guesser.solve`).
Words are modelled as lists of bytes (`List Nat`); the fixed-size Rust
arrays `[Correctness; 5]` and `[bool; 5]` are modelled as length-5 lists,
with `List.set` / `List.getD` for the in-bounds index accesses.  Variants
with explicit bounds checks (`Correctness.computeChecked`,
`Guess.matchesChecked`) return `none` exactly where the Rust code would
panic on an out-of-bounds array index.
-/

/-- Per-position feedback, as in `enum Correctness` of src/guesser.rs. -/
inductive Correctness
  | Correct
  | Misplaced
  | Wrong
deriving DecidableEq

/-- A word is a list of bytes (`str::bytes` in the Rust code). -/
abbrev Word := List Nat

/-- First pass of `Correctness::compute`: for each position of
`answer.bytes().zip(word.bytes())`, on equal bytes mark `Correct` and flag
the answer position as used. -/
def pass1 : List (Nat × Nat) → Nat → List Correctness → List Bool → List Correctness × List Bool
  | [], _, c, used => (c, used)
  | (a, g) :: rest, i, c, used =>
    if a = g then pass1 rest (i + 1) (c.set i Correctness.Correct) (used.set i true)
    else pass1 rest (i + 1) c used

/-- The `answer.bytes().enumerate().any(...)` closure in the second pass of
`Correctness::compute`: find the first answer position holding byte `g`
that is not yet used (the closure marks it used and short-circuits). -/
def findUnused (g : Nat) : List Nat → Nat → List Bool → Option Nat
  | [], _, _ => none
  | a :: rest, j, used =>
    if a = g ∧ used.getD j false = false then some j
    else findUnused g rest (j + 1) used

/-- Second pass of `Correctness::compute`: for each word position not already
`Correct`, consume the first unused answer position with the same byte and
mark `Misplaced`; otherwise leave the mark as is. -/
def pass2 : List Nat → Nat → List Nat → List Correctness → List Bool → List Correctness × List Bool
  | [], _, _, c, used => (c, used)
  | g :: rest, i, answer, c, used =>
    if c.getD i Correctness.Wrong = Correctness.Correct then pass2 rest (i + 1) answer c used
    else
      match findUnused g answer 0 used with
      | some j => pass2 rest (i + 1) answer (c.set i Correctness.Misplaced) (used.set j true)
      | none => pass2 rest (i + 1) answer c used

/-- `Correctness::compute(answer, word)` from src/guesser.rs. -/
def Correctness.compute (answer word : Word) : List Correctness :=
  let p := pass1 (answer.zip word) 0 (List.replicate 5 Correctness.Wrong) (List.replicate 5 false)
  (pass2 word 0 answer p.1 p.2).1

/-- `struct Guess` of src/guesser.rs: a played word together with its mask. -/
structure Guess where
  word : Word
  mask : List Correctness
deriving DecidableEq

/-- `Guess::check(answer, word)` from src/guesser.rs. -/
def Guess.check (answer word : Word) : Guess :=
  { word := word, mask := Correctness.compute answer word }

/-- Outcome of the inner `for (j, (g_i, &m_i))` scan of `Guess::matches`:
`reject` models `return false`, `consumed` models `continue 'outer` after
setting `used[j]`, `fallthrough` models falling off the end of the scan. -/
inductive ScanResult
  | reject
  | consumed (used : List Bool)
  | fallthrough
deriving DecidableEq

/-- The inner scan of `Guess::matches`, over `self.word.bytes().zip(&self.mask)`
with running index `j`, looking for a home for candidate byte `w` found at
candidate position `i`. -/
def innerLoop (i : Nat) (w : Nat) (used : List Bool) : List (Nat × Correctness) → Nat → ScanResult
  | [], _ => ScanResult.fallthrough
  | (g, m) :: rest, j =>
    if g ≠ w ∨ used.getD j false = true then innerLoop i w used rest (j + 1)
    else
      match m with
      | Correctness.Correct => innerLoop i w used rest (j + 1)
      | Correctness.Misplaced =>
          if j ≠ i then ScanResult.consumed (used.set j true) else ScanResult.reject
      | Correctness.Wrong => ScanResult.reject

/-- The outer `'outer: for (i, ((g, &m), w))` loop of `Guess::matches`;
`gp` is `self.word.bytes().zip(&self.mask)` and the loop runs over
`gp.zip(word.bytes())`.  `none` models `return false`. -/
def outerLoop (gp : List (Nat × Correctness)) :
    List ((Nat × Correctness) × Nat) → Nat → List Bool → Option (List Bool)
  | [], _, used => some used
  | ((g, m), w) :: rest, i, used =>
    if m = Correctness.Correct then
      if w ≠ g then none else outerLoop gp rest (i + 1) (used.set i true)
    else
      match innerLoop i w used gp 0 with
      | ScanResult.reject => none
      | ScanResult.consumed u => outerLoop gp rest (i + 1) u
      | ScanResult.fallthrough => outerLoop gp rest (i + 1) used

/-- `Guess::matches(&self, word)` from src/guesser.rs: the outer loop followed
by the closing check that every `Misplaced` mark has been consumed. -/
def Guess.matches (g : Guess) (word : Word) : Bool :=
  let gp := g.word.zip g.mask
  match outerLoop gp (gp.zip word) 0 (List.replicate 5 false) with
  | none => false
  | some used =>
      (g.mask.zip used).all fun p =>
        if p.1 = Correctness.Misplaced ∧ p.2 = false then false else true

/-- `Guess::is_correct` from src/guesser.rs. -/
def Guess.isCorrect (g : Guess) : Bool :=
  decide (g.mask = List.replicate 5 Correctness.Correct)

/-- One filtering step of `Guesser::solve`: retain the candidates that match
the guess and are not excluded (the `filter_map`/`retain` closure). -/
def filterStep (excl : List Word) (g : Guess) (dict : List Word) : List Word :=
  dict.filter fun w => g.matches w && !(decide (w ∈ excl))

/-- The `for i in 0..6` loop body of `Guesser::solve`, with explicit fuel
(remaining rounds), round index `i`, current guess word, candidate set and
history array. -/
def solveLoop (answer : Word) (excl : List Word) :
    Nat → Nat → Word → List Word → List (Option Guess) → Option Nat × List (Option Guess)
  | 0, _, _, _, history => (none, history)
  | fuel + 1, i, current, dict, history =>
    let guess := Guess.check answer current
    if guess.isCorrect then (some (i + 1), history)
    else
      let dict' := filterStep excl guess dict
      let history' := history.set i (some guess)
      if dict' = [] then (none, history')
      else solveLoop answer excl fuel (i + 1) (dict'.headD []) dict' history'

/-- The hard-coded opening word `"salet"` of `Guesser::solve`. -/
def salet : Word := [115, 97, 108, 101, 116]

/-- `Guesser::solve`: six rounds starting from the fixed opener, returning the
`Option<usize>` result together with the final history array. -/
def Guesser.solve (answer : Word) (dict : List Word) (excl : List Word) :
    Option Nat × List (Option Guess) :=
  solveLoop answer excl 6 0 salet dict (List.replicate 6 none)

/-- `Guesser::guessed_words`: unwraps every history slot; `none` models the
panic of `Option::unwrap` on an empty slot. -/
def Guesser.guessedWords : List (Option Guess) → Option (List Word)
  | [] => some []
  | none :: _ => none
  | some g :: rest =>
    match Guesser.guessedWords rest with
    | none => none
    | some ws => some (g.word :: ws)

/-- Bounds-checked first pass of `Correctness.compute`: writing `c[i]` and
`used[i]` with `i ≥ 5` is an out-of-bounds panic, modelled as `none`. -/
def pass1C : List (Nat × Nat) → Nat → List Correctness → List Bool → Option (List Correctness × List Bool)
  | [], _, c, used => some (c, used)
  | (a, g) :: rest, i, c, used =>
    if a = g then
      if i < 5 then pass1C rest (i + 1) (c.set i Correctness.Correct) (used.set i true) else none
    else pass1C rest (i + 1) c used

/-- Bounds-checked `findUnused`: the closure reads `used[i]` only after
`a == g` holds, so an answer position `j ≥ 5` panics exactly when its byte
equals `g`. -/
def findUnusedC (g : Nat) : List Nat → Nat → List Bool → Option (Option Nat)
  | [], _, _ => some none
  | a :: rest, j, used =>
    if a = g then
      if j < 5 then
        if used.getD j false = true then findUnusedC g rest (j + 1) used else some (some j)
      else none
    else findUnusedC g rest (j + 1) used

/-- Bounds-checked second pass: `c[i]` is read unconditionally at every word
position `i`, so `i ≥ 5` panics. -/
def pass2C : List Nat → Nat → List Nat → List Correctness → List Bool → Option (List Correctness × List Bool)
  | [], _, _, c, used => some (c, used)
  | g :: rest, i, answer, c, used =>
    if i < 5 then
      if c.getD i Correctness.Wrong = Correctness.Correct then pass2C rest (i + 1) answer c used
      else
        match findUnusedC g answer 0 used with
        | none => none
        | some (some j) => pass2C rest (i + 1) answer (c.set i Correctness.Misplaced) (used.set j true)
        | some none => pass2C rest (i + 1) answer c used
    else none

/-- `Correctness::compute` with the Rust array bounds made explicit: `none`
exactly when the Rust code would panic on an out-of-bounds index. -/
def Correctness.computeChecked (answer word : Word) : Option (List Correctness) :=
  match pass1C (answer.zip word) 0 (List.replicate 5 Correctness.Wrong) (List.replicate 5 false) with
  | none => none
  | some p =>
    match pass2C word 0 answer p.1 p.2 with
    | none => none
    | some q => some q.1

/-- Bounds-checked inner scan of `Guess::matches`: `used[j]` is read only
after `g_i == w` holds. -/
def innerLoopC (i : Nat) (w : Nat) (used : List Bool) : List (Nat × Correctness) → Nat → Option ScanResult
  | [], _ => some ScanResult.fallthrough
  | (g, m) :: rest, j =>
    if g ≠ w then innerLoopC i w used rest (j + 1)
    else
      if j < 5 then
        if used.getD j false = true then innerLoopC i w used rest (j + 1)
        else
          match m with
          | Correctness.Correct => innerLoopC i w used rest (j + 1)
          | Correctness.Misplaced =>
              if j ≠ i then some (ScanResult.consumed (used.set j true)) else some ScanResult.reject
          | Correctness.Wrong => some ScanResult.reject
      else none

/-- Bounds-checked outer loop of `Guess::matches`: `used[i] = true` in the
`Correct` branch panics when `i ≥ 5`. -/
def outerLoopC (gp : List (Nat × Correctness)) :
    List ((Nat × Correctness) × Nat) → Nat → List Bool → Option (Option (List Bool))
  | [], _, used => some (some used)
  | ((g, m), w) :: rest, i, used =>
    if m = Correctness.Correct then
      if w ≠ g then some none
      else if i < 5 then outerLoopC gp rest (i + 1) (used.set i true) else none
    else
      match innerLoopC i w used gp 0 with
      | none => none
      | some ScanResult.reject => some none
      | some (ScanResult.consumed u) => outerLoopC gp rest (i + 1) u
      | some ScanResult.fallthrough => outerLoopC gp rest (i + 1) used

/-- `Guess::matches` with the Rust array bounds made explicit. -/
def Guess.matchesChecked (g : Guess) (word : Word) : Option Bool :=
  let gp := g.word.zip g.mask
  match outerLoopC gp (gp.zip word) 0 (List.replicate 5 false) with
  | none => none
  | some none => some false
  | some (some used) =>
      some ((g.mask.zip used).all fun p =>
        if p.1 = Correctness.Misplaced ∧ p.2 = false then false else true)

/-- Proof device: the mask produced by the first pass alone. -/
def pass1mask (answer word : Word) : List Correctness :=
  (answer.zip word).map fun p => if p.1 = p.2 then Correctness.Correct else Correctness.Wrong

/-- Proof device: the used-flags produced by the first pass alone. -/
def pass1used (answer word : Word) : List Bool :=
  (answer.zip word).map fun p => decide (p.1 = p.2)

/-- Proof device: the answer bytes left unconsumed by the first pass, in
position order. -/
def leftover (answer word : Word) : List Nat :=
  (answer.zip word).filterMap fun p => if p.1 = p.2 then none else some p.1

/-- Proof device: structural form of the second pass of `Correctness.compute`.
It walks the word paired with the first-pass mask and keeps the list of
still-unconsumed answer bytes, returning the final mask and the remaining
unconsumed bytes. -/
def pass2s : List (Nat × Correctness) → List Nat → List Correctness × List Nat
  | [], rem => ([], rem)
  | (g, m) :: rest, rem =>
    if m = Correctness.Correct then
      let r := pass2s rest rem
      (Correctness.Correct :: r.1, r.2)
    else if g ∈ rem then
      let r := pass2s rest (rem.erase g)
      (Correctness.Misplaced :: r.1, r.2)
    else
      let r := pass2s rest rem
      (Correctness.Wrong :: r.1, r.2)

/-- Proof device: structural restatement of `Correctness.compute` for 5-letter
inputs, proved equal to it below. -/
def computeSpec (answer word : Word) : List Correctness :=
  (pass2s (word.zip (pass1mask answer word)) (leftover answer word)).1

/-- Proof device: the bytes of the suffix of the answer starting at position
`j` whose used-flag is not set. -/
def unconsumedFrom : List Nat → Nat → List Bool → List Nat
  | [], _, _ => []
  | a :: rest, j, used =>
    if used.getD j false = true then unconsumedFrom rest (j + 1) used
    else a :: unconsumedFrom rest (j + 1) used

/-- Number of history slots that have been written. -/
def writtenCount (h : List (Option Guess)) : Nat := h.countP fun o => o.isSome

/-- Proof device: the (current word, candidate set) state of `Guesser.solve`
after `n` further rounds of guessing and filtering. -/
def stage (answer : Word) (excl : List Word) : Nat → Word → List Word → Word × List Word
  | 0, current, dict => (current, dict)
  | n + 1, current, dict =>
    let d := filterStep excl (Guess.check answer current) dict
    stage answer excl n (d.headD []) d

/-- The candidate set obtained from `dict` by applying, in order, the
filtering steps of the first `j` recorded guesses of a history. -/
def dictAfter (excl : List Word) (dict : List Word) (h : List (Option Guess)) (j : Nat) : List Word :=
  ((h.take j).filterMap id).foldl (fun d g => filterStep excl g d) dict

/-- Byte list of the word `"tares"`. -/
def taresW : Word := [116, 97, 114, 101, 115]

/-- Byte list of the word `"islet"`. -/
def isletW : Word := [105, 115, 108, 101, 116]

/-- Byte list of the word `"given"`. -/
def givenW : Word := [103, 105, 118, 101, 110]

/-- Byte list of the word `"model"`. -/
def modelW : Word := [109, 111, 100, 101, 108]

/-- Byte list of the word `"chief"`. -/
def chiefW : Word := [99, 104, 105, 101, 102]

theorem test_all_correct :
    Correctness.compute [115, 116, 97, 114, 101] [115, 116, 97, 114, 101] =
      [Correctness.Correct, Correctness.Correct, Correctness.Correct,
       Correctness.Correct, Correctness.Correct] := by decide

theorem test_all_misplaced :
    Correctness.compute [115, 116, 97, 114, 101] taresW =
      [Correctness.Misplaced, Correctness.Misplaced, Correctness.Misplaced,
       Correctness.Misplaced, Correctness.Misplaced] := by decide

theorem test_all_wrong :
    Correctness.compute [115, 116, 97, 114, 101] [99, 104, 111, 109, 112] =
      [Correctness.Wrong, Correctness.Wrong, Correctness.Wrong,
       Correctness.Wrong, Correctness.Wrong] := by decide

theorem test_mixed :
    Correctness.compute taresW [116, 97, 114, 100, 121] =
      [Correctness.Correct, Correctness.Correct, Correctness.Correct,
       Correctness.Wrong, Correctness.Wrong] ∧
    Correctness.compute [112, 97, 114, 116, 121] [116, 97, 114, 100, 121] =
      [Correctness.Misplaced, Correctness.Correct, Correctness.Correct,
       Correctness.Wrong, Correctness.Correct] := by decide

theorem test_plausibility_imply :
    (Guess.check [105, 109, 112, 108, 121] [103, 121, 112, 115, 121]).matches
        [110, 121, 109, 112, 104] = false ∧
    (Guess.check [105, 109, 112, 108, 121] [103, 121, 112, 115, 121]).matches
        [97, 109, 112, 108, 121] = true := by decide

theorem test_plausibility_close :
    (Guess.check [99, 99, 99, 99, 99] [99, 99, 99, 99, 103]).matches
        [99, 99, 99, 99, 99] = true ∧
    (Guess.check [99, 99, 99, 99, 99] [99, 99, 99, 99, 103]).matches
        [99, 99, 99, 99, 122] = true := by decide

theorem test_plausibility_racer :
    (Guess.check [114, 97, 99, 101, 114] taresW).matches [112, 97, 99, 101, 114] = true ∧
    (Guess.check [114, 97, 99, 101, 114] taresW).matches [114, 97, 99, 101, 100] = true ∧
    (Guess.check [114, 97, 99, 101, 114] taresW).matches [114, 97, 99, 101, 115] = false := by
  decide


/-! ### Basic list helpers -/

theorem getD_set_self {α : Type _} (l : List α) {i : Nat} (a d : α) (h : i < l.length) :
    (l.set i a).getD i d = a := by
  simp [List.getD_eq_getElem?_getD, List.getElem?_set_self h]

theorem getD_set_ne {α : Type _} (l : List α) {i j : Nat} (h : i ≠ j) (a d : α) :
    (l.set i a).getD j d = l.getD j d := by
  simp [List.getD_eq_getElem?_getD, List.getElem?_set_ne h]

theorem getD_replicate {α : Type _} {n i : Nat} (a d : α) (h : i < n) :
    (List.replicate n a).getD i d = a := by
  simp [List.getD_eq_getElem?_getD, List.getElem?_replicate, h]

theorem getD_replicate_any {α : Type _} {n i : Nat} (a : α) :
    (List.replicate n a).getD i a = a := by
  by_cases h : i < n
  · exact getD_replicate a a h
  · simp [List.getD_eq_getElem?_getD, List.getElem?_replicate, h]

theorem getD_zip {α β : Type _} (l1 : List α) (l2 : List β) {n : Nat} (d1 : α) (d2 : β)
    (h1 : n < l1.length) (h2 : n < l2.length) :
    (l1.zip l2).getD n (d1, d2) = (l1.getD n d1, l2.getD n d2) := by
  have hz : n < (l1.zip l2).length := by rw [List.length_zip]; omega
  rw [List.getD_eq_getElem _ _ hz, List.getElem_zip,
    List.getD_eq_getElem _ _ h1, List.getD_eq_getElem _ _ h2]

theorem getD_default_of_le {α : Type _} (l : List α) {n : Nat} (d : α) (h : l.length ≤ n) :
    l.getD n d = d := by
  rw [List.getD_eq_getElem?_getD, List.getElem?_eq_none (by omega)]
  rfl

theorem take_set_succ {α : Type _} :
    ∀ (l : List α) (i : Nat) (a : α), i < l.length →
      (l.set i a).take (i + 1) = l.take i ++ [a]
  | [], i, a, h => by simp at h
  | b :: t, 0, a, h => by simp
  | b :: t, i + 1, a, h => by
    rw [List.set_cons_succ, List.take_succ_cons, take_set_succ t i a (by simpa using h)]
    simp

theorem take_succ_getD {α : Type _} (l : List α) {i : Nat} (d : α) (h : i < l.length) :
    l.take (i + 1) = l.take i ++ [l.getD i d] := by
  rw [List.take_succ, List.getElem?_eq_getElem h, List.getD_eq_getElem _ _ h]
  rfl

theorem drop_set_lt {α : Type _} (l : List α) {i k : Nat} (a : α) (h : i < k) :
    (l.set i a).drop k = l.drop k := by
  rw [List.drop_set, if_pos h]

theorem countP_eq_countP_range {α : Type _} (l : List α) (p : α → Bool) (d : α) :
    l.countP p = (List.range l.length).countP (fun n => p (l.getD n d)) := by
  induction l with
  | nil => simp
  | cons a t ih =>
    rw [List.countP_cons, List.length_cons, List.range_succ_eq_map, List.countP_cons,
      List.countP_map]
    simp only [List.getD_cons_zero]
    have : (List.countP ((fun n => p ((a :: t).getD n d)) ∘ Nat.succ) (List.range t.length))
        = List.countP (fun n => p (t.getD n d)) (List.range t.length) := by
      apply List.countP_congr
      intro x _
      simp [Function.comp, List.getD_cons_succ]
    omega

theorem countP_and_le {α : Type _} (l : List α) (p q : α → Bool) :
    l.countP (fun x => p x && q x) ≤ l.countP p := by
  induction l with
  | nil => simp
  | cons a t ih =>
    rw [List.countP_cons, List.countP_cons]
    by_cases hp : p a <;> by_cases hq : q a <;> simp [hp, hq] <;> omega

theorem countP_and_eq_of_imp {α : Type _} {l : List α} {p q : α → Bool}
    (h : ∀ x ∈ l, p x = true → q x = true) :
    l.countP (fun x => p x && q x) = l.countP p := by
  induction l with
  | nil => simp
  | cons a t ih =>
    rw [List.countP_cons, List.countP_cons,
      ih (fun x hx => h x (List.mem_cons_of_mem a hx))]
    by_cases hp : p a
    · rw [h a (List.mem_cons_self a t) hp]; simp [hp]
    · simp [hp]

theorem imp_of_countP_and_eq {α : Type _} {l : List α} {p q : α → Bool}
    (h : l.countP (fun x => p x && q x) = l.countP p) :
    ∀ x ∈ l, p x = true → q x = true := by
  induction l with
  | nil => simp
  | cons a t ih =>
    rw [List.countP_cons, List.countP_cons] at h
    have hle := countP_and_le t p q
    by_cases hp : p a
    · by_cases hq : q a
      · intro x hx hpx
        rcases List.mem_cons.mp hx with rfl | hx'
        · exact hq
        · exact ih (by simp [hp, hq] at h; omega) x hx' hpx
      · simp [hp, hq] at h; omega
    · intro x hx hpx
      rcases List.mem_cons.mp hx with rfl | hx'
      · exact absurd hpx hp
      · exact ih (by simp [hp] at h; omega) x hx' hpx

theorem exists_of_countP_and_lt {α : Type _} {l : List α} {p q : α → Bool}
    (h : l.countP (fun x => p x && q x) < l.countP p) :
    ∃ x ∈ l, p x = true ∧ q x = false := by
  by_contra hc
  push_neg at hc
  have : ∀ x ∈ l, p x = true → q x = true := by
    intro x hx hpx
    have := hc x hx hpx
    revert this
    cases q x <;> simp
  rw [countP_and_eq_of_imp this] at h
  omega

theorem countP_range_lt_of {p : Nat → Bool} {n m : Nat} (hnm : n < m) (hp : p n = true) :
    (List.range n).countP p < (List.range m).countP p := by
  induction m with
  | zero => omega
  | succ k ih =>
    rw [List.range_succ, List.countP_append]
    rcases Nat.lt_succ_iff_lt_or_eq.mp hnm with h | h
    · have := ih h
      omega
    · subst h
      have : List.countP p [n] = 1 := by simp [List.countP_cons, hp]
      omega

theorem countP_range_le {p : Nat → Bool} {n m : Nat} (hnm : n ≤ m) :
    (List.range n).countP p ≤ (List.range m).countP p :=
  (List.range_sublist.mpr hnm).countP_le p

theorem countP_range_succ (p : Nat → Bool) (n : Nat) :
    (List.range (n + 1)).countP p =
      (List.range n).countP p + (if p n then 1 else 0) := by
  rw [List.range_succ, List.countP_append]
  simp [List.countP_cons]

theorem countP_update_true {p q : Nat → Bool} :
    ∀ (l : List Nat), l.Nodup → ∀ jm ∈ l,
      (∀ x ∈ l, x ≠ jm → p x = q x) → p jm = false → q jm = true →
      l.countP q = l.countP p + 1 := by
  intro l
  induction l with
  | nil => simp
  | cons a t ih =>
    intro hnd jm hjm hagree hpf hqt
    rw [List.countP_cons, List.countP_cons]
    rcases List.mem_cons.mp hjm with rfl | hjm'
    · have heq : ∀ x ∈ t, p x = q x := by
        intro x hx
        exact hagree x (List.mem_cons_of_mem _ hx)
          (fun hxx => (List.nodup_cons.mp hnd).1 (hxx ▸ hx))
      have hpq : List.countP q t = List.countP p t :=
        (List.countP_congr (fun x hx => by rw [heq x hx])).symm
      rw [hpq]
      simp [hpf, hqt]
    · have hne : a ≠ jm := fun hxx => (List.nodup_cons.mp hnd).1 (hxx ▸ hjm')
      rw [ih (List.nodup_cons.mp hnd).2 jm hjm'
        (fun x hx => hagree x (List.mem_cons_of_mem _ hx)) hpf hqt,
        hagree a (List.mem_cons_self a t) hne]
      omega

theorem countP_split {α : Type _} (l : List α) (p q : α → Bool) :
    l.countP p = l.countP (fun x => p x && q x) + l.countP (fun x => p x && !q x) := by
  induction l with
  | nil => simp
  | cons a t ih =>
    rw [List.countP_cons, List.countP_cons, List.countP_cons]
    by_cases hp : p a <;> by_cases hq : q a <;> simp [hp, hq] <;> omega

/-! ### The first pass of compute -/

theorem pass1_eq :
    ∀ (ps : List (Nat × Nat)) (i : Nat) (c : List Correctness) (used : List Bool),
      i + ps.length = c.length → used.length = c.length →
      (∀ n, i ≤ n → c.getD n Correctness.Wrong = Correctness.Wrong) →
      (∀ n, i ≤ n → used.getD n false = false) →
      pass1 ps i c used =
        (c.take i ++ ps.map (fun p =>
            if p.1 = p.2 then Correctness.Correct else Correctness.Wrong),
         used.take i ++ ps.map fun p => decide (p.1 = p.2))
  | [], i, c, used, hlen, hul, _, _ => by
    have h1 : c.length ≤ i := by simp at hlen; omega
    have h2 : used.length ≤ i := by omega
    simp only [pass1, List.map_nil, List.append_nil]
    rw [List.take_of_length_le h1, List.take_of_length_le h2]
  | (a, g) :: rest, i, c, used, hlen, hul, hc, hu => by
    have hic : i < c.length := by simp at hlen; omega
    have hiu : i < used.length := by omega
    simp only [pass1]
    by_cases hag : a = g
    · rw [if_pos hag]
      rw [pass1_eq rest (i + 1) (c.set i Correctness.Correct) (used.set i true)
        (by simp at hlen ⊢; omega) (by simp; omega)
        (fun n hn => by rw [getD_set_ne c (by omega)]; exact hc n (by omega))
        (fun n hn => by rw [getD_set_ne used (by omega)]; exact hu n (by omega))]
      rw [take_set_succ c i _ hic, take_set_succ used i _ hiu]
      simp [hag]
    · rw [if_neg hag]
      rw [pass1_eq rest (i + 1) c used (by simp at hlen ⊢; omega) (by omega)
        (fun n hn => hc n (by omega)) (fun n hn => hu n (by omega))]
      rw [take_succ_getD c Correctness.Wrong hic, take_succ_getD used false hiu,
        hc i (Nat.le_refl i), hu i (Nat.le_refl i)]
      simp [hag]

theorem pass1_spec (answer word : Word) (ha : answer.length = 5) (hw : word.length = 5) :
    pass1 (answer.zip word) 0 (List.replicate 5 Correctness.Wrong) (List.replicate 5 false)
      = (pass1mask answer word, pass1used answer word) := by
  rw [pass1_eq (answer.zip word) 0 _ _
    (by simp [List.length_zip, ha, hw]) (by simp)
    (fun n _ => getD_replicate_any _) (fun n _ => getD_replicate_any _)]
  simp [pass1mask, pass1used]

/-! ### The unconsumed-letters view of the used-flags -/

theorem unconsumedFrom_set_lt :
    ∀ (as : List Nat) (j₀ : Nat) (u : List Bool) (k : Nat) (b : Bool), k < j₀ →
      unconsumedFrom as j₀ (u.set k b) = unconsumedFrom as j₀ u
  | [], _, _, _, _, _ => rfl
  | a :: rest, j₀, u, k, b, hk => by
    simp only [unconsumedFrom]
    rw [getD_set_ne u (by omega), unconsumedFrom_set_lt rest (j₀ + 1) u k b (by omega)]

theorem findUnused_some :
    ∀ (as : List Nat) (j₀ : Nat) (u : List Bool) (g : Nat),
      j₀ + as.length ≤ u.length →
      g ∈ unconsumedFrom as j₀ u →
      ∃ j, findUnused g as j₀ u = some j ∧ j₀ ≤ j ∧ j < u.length ∧
        u.getD j false = false ∧
        unconsumedFrom as j₀ (u.set j true) = (unconsumedFrom as j₀ u).erase g
  | [], j₀, u, g, _, hmem => by simp [unconsumedFrom] at hmem
  | a :: rest, j₀, u, g, hlen, hmem => by
    have hj₀u : j₀ < u.length := by simp at hlen; omega
    by_cases hu : u.getD j₀ false = true
    · rw [unconsumedFrom, if_pos hu] at hmem
      obtain ⟨j, hfind, hj₀, hju, hjf, herase⟩ :=
        findUnused_some rest (j₀ + 1) u g (by simp at hlen ⊢; omega) hmem
      refine ⟨j, ?_, by omega, hju, hjf, ?_⟩
      · rw [findUnused, if_neg (by intro hcond; rw [hu] at hcond; exact absurd hcond.2 (by decide))]
        exact hfind
      · rw [unconsumedFrom, getD_set_ne u (by omega), if_pos hu, herase,
          unconsumedFrom, if_pos hu]
    · have hu' : u.getD j₀ false = false := by
        revert hu; cases u.getD j₀ false <;> simp
      rw [unconsumedFrom, if_neg (by rw [hu']; decide)] at hmem
      by_cases hag : a = g
      · refine ⟨j₀, ?_, Nat.le_refl j₀, hj₀u, hu', ?_⟩
        · rw [findUnused, if_pos ⟨hag, hu'⟩]
        · rw [unconsumedFrom, getD_set_self u true false hj₀u, if_pos rfl,
            unconsumedFrom_set_lt rest (j₀ + 1) u j₀ true (by omega),
            unconsumedFrom, if_neg (by rw [hu']; decide), hag, List.erase_cons_head]
      · have hmem' : g ∈ unconsumedFrom rest (j₀ + 1) u := by
          rcases List.mem_cons.mp hmem with h | h
          · exact absurd h.symm hag
          · exact h
        obtain ⟨j, hfind, hj₀, hju, hjf, herase⟩ :=
          findUnused_some rest (j₀ + 1) u g (by simp at hlen ⊢; omega) hmem'
        refine ⟨j, ?_, by omega, hju, hjf, ?_⟩
        · rw [findUnused, if_neg (by simp [hag])]
          exact hfind
        · rw [unconsumedFrom, getD_set_ne u (by omega), if_neg (by rw [hu']; decide),
            unconsumedFrom, if_neg (by rw [hu']; decide), herase,
            List.erase_cons_tail (by simp [hag])]

theorem findUnused_none :
    ∀ (as : List Nat) (j₀ : Nat) (u : List Bool) (g : Nat),
      g ∉ unconsumedFrom as j₀ u → findUnused g as j₀ u = none
  | [], _, _, _, _ => rfl
  | a :: rest, j₀, u, g, hmem => by
    by_cases hu : u.getD j₀ false = true
    · rw [unconsumedFrom, if_pos hu] at hmem
      rw [findUnused, if_neg (by intro hcond; rw [hu] at hcond; exact absurd hcond.2 (by decide))]
      exact findUnused_none rest (j₀ + 1) u g hmem
    · have hu' : u.getD j₀ false = false := by
        revert hu; cases u.getD j₀ false <;> simp
      rw [unconsumedFrom, if_neg (by rw [hu']; decide)] at hmem
      have hag : ¬(a = g) := fun h => hmem (h ▸ List.mem_cons_self a _)
      rw [findUnused, if_neg (by simp [hag])]
      exact findUnused_none rest (j₀ + 1) u g (fun h => hmem (List.mem_cons_of_mem a h))

/-! ### The second pass of compute, structurally -/

theorem unconsumedFrom_shift :
    ∀ (as : List Nat) (j₀ : Nat) (u : List Bool),
      unconsumedFrom as j₀ u = unconsumedFrom as 0 (u.drop j₀)
  | [], _, _ => rfl
  | a :: rest, j₀, u => by
    have hget : (u.drop j₀).getD 0 false = u.getD j₀ false := by
      simp [List.getD_eq_getElem?_getD, List.getElem?_drop]
    rw [unconsumedFrom, unconsumedFrom, hget,
      unconsumedFrom_shift rest (j₀ + 1) u, unconsumedFrom_shift rest 1 (u.drop j₀),
      List.drop_drop]

theorem unconsumedFrom_pass1used :
    ∀ (answer word : Word), answer.length ≤ word.length →
      unconsumedFrom answer 0 (pass1used answer word) = leftover answer word
  | [], _, _ => rfl
  | a :: answer, [], h => by simp at h
  | a :: answer, g :: word, h => by
    have htail : unconsumedFrom answer 0 (pass1used answer word) = leftover answer word :=
      unconsumedFrom_pass1used answer word (by simpa using h)
    have hshift : unconsumedFrom answer 1 (decide (a = g) :: pass1used answer word)
        = unconsumedFrom answer 0 (pass1used answer word) := by
      rw [unconsumedFrom_shift answer 1 _]
      rfl
    by_cases hag : a = g
    · rw [unconsumedFrom, leftover]
      simp only [pass1used, leftover, List.zip_cons_cons, List.map_cons, List.filterMap_cons]
      rw [if_pos (by simp [List.getD_cons_zero, hag]), if_pos hag]
      show unconsumedFrom answer 1 (decide (a = g) :: pass1used answer word) = _
      rw [hshift, htail]
      rfl
    · rw [unconsumedFrom]
      simp only [pass1used, List.zip_cons_cons, List.map_cons]
      rw [if_neg (by simp [List.getD_cons_zero, hag])]
      show a :: unconsumedFrom answer 1 (decide (a = g) :: pass1used answer word) = _
      rw [hshift, htail]
      simp [leftover, List.filterMap_cons, hag]

theorem pass2_eq :
    ∀ (ws : List Nat) (i : Nat) (answer : Word) (c : List Correctness) (u : List Bool),
      i + ws.length = c.length → answer.length ≤ u.length →
      (∀ n, i ≤ n → c.getD n Correctness.Wrong ≠ Correctness.Misplaced) →
      (pass2 ws i answer c u).1 =
        c.take i ++ (pass2s (ws.zip (c.drop i)) (unconsumedFrom answer 0 u)).1
  | [], i, answer, c, u, hlen, _, _ => by
    simp only [pass2, List.zip_nil_left, pass2s]
    rw [List.take_of_length_le (by simp at hlen; omega), List.append_nil]
  | g :: ws, i, answer, c, u, hlen, hau, hnm => by
    have hic : i < c.length := by simp at hlen; omega
    have hdrop : c.drop i = c.getD i Correctness.Wrong :: c.drop (i + 1) := by
      rw [List.getD_eq_getElem c _ hic]
      exact List.drop_eq_getElem_cons hic
    rw [hdrop]
    simp only [pass2, List.zip_cons_cons, pass2s]
    by_cases hC : c.getD i Correctness.Wrong = Correctness.Correct
    · rw [if_pos hC, if_pos hC]
      rw [pass2_eq ws (i + 1) answer c u (by simp at hlen ⊢; omega) hau
        (fun n hn => hnm n (by omega))]
      rw [take_succ_getD c Correctness.Wrong hic, hC]
      simp
      rfl
    · rw [if_neg hC, if_neg hC]
      by_cases hg : g ∈ unconsumedFrom answer 0 u
      · obtain ⟨j, hfind, _, hju, _, herase⟩ :=
          findUnused_some answer 0 u g (by omega) hg
        rw [hfind, if_pos hg]
        rw [pass2_eq ws (i + 1) answer (c.set i Correctness.Misplaced) (u.set j true)
          (by simp at hlen ⊢; omega) (by simp; omega)
          (fun n hn => by
            rw [getD_set_ne c (by omega)]
            exact hnm n (by omega))]
        rw [take_set_succ c i _ hic, drop_set_lt c _ (by omega), herase]
        simp
        rfl
      · rw [findUnused_none answer 0 u g hg, if_neg hg]
        have hW : c.getD i Correctness.Wrong = Correctness.Wrong := by
          rcases hq : c.getD i Correctness.Wrong with _ | _ | _
          · exact absurd hq hC
          · exact absurd hq (hnm i (Nat.le_refl i))
          · rfl
        rw [pass2_eq ws (i + 1) answer c u (by simp at hlen ⊢; omega) hau
          (fun n hn => hnm n (by omega))]
        rw [take_succ_getD c Correctness.Wrong hic, hW]
        simp
        rfl

theorem compute_eq_computeSpec (answer word : Word)
    (ha : answer.length = 5) (hw : word.length = 5) :
    Correctness.compute answer word = computeSpec answer word := by
  rw [Correctness.compute, pass1_spec answer word ha hw]
  have hlm : (pass1mask answer word).length = 5 := by
    simp [pass1mask, List.length_zip, ha, hw]
  have hlu : (pass1used answer word).length = 5 := by
    simp [pass1used, List.length_zip, ha, hw]
  rw [pass2_eq word 0 answer (pass1mask answer word) (pass1used answer word)
    (by omega) (by omega)
    (fun n _ => by
      by_cases hn : n < 5
      · rw [pass1mask, List.getD_eq_getElem _ _
          (by rw [List.length_map, List.length_zip, ha, hw]; omega : n < _)]
        simp only [List.getElem_map]
        split_ifs <;> by_cases hxx : answer[n] = word[n] <;> simp [hxx]
      · rw [getD_default_of_le _ _ (by omega)]
        simp)]
  rw [unconsumedFrom_pass1used answer word (by omega)]
  simp [computeSpec]

/-! ### Per-letter facts about the structural second pass -/

theorem pass2s_length : ∀ (ps : List (Nat × Correctness)) (rem : List Nat),
    (pass2s ps rem).1.length = ps.length
  | [], _ => rfl
  | (g, m) :: rest, rem => by
    simp only [pass2s]
    by_cases hC : m = Correctness.Correct
    · simp [hC, pass2s_length rest rem]
    · rw [if_neg hC]
      by_cases hg : g ∈ rem
      · simp [hg, pass2s_length rest (rem.erase g)]
      · simp [hg, pass2s_length rest rem]

theorem pass2s_correct_iff :
    ∀ (ps : List (Nat × Correctness)) (rem : List Nat) (n : Nat), n < ps.length →
      ((pass2s ps rem).1.getD n Correctness.Wrong = Correctness.Correct ↔
        (ps.getD n (0, Correctness.Wrong)).2 = Correctness.Correct)
  | [], _, n, hn => by simp at hn
  | (g, m) :: rest, rem, n, hn => by
    simp only [pass2s]
    by_cases hC : m = Correctness.Correct
    · rw [if_pos hC]
      cases n with
      | zero => simp [List.getD_cons_zero, hC]
      | succ k =>
        simp only [List.getD_cons_succ]
        exact pass2s_correct_iff rest rem k (by simpa using hn)
    · rw [if_neg hC]
      by_cases hg : g ∈ rem
      · rw [if_pos hg]
        cases n with
        | zero => simp [List.getD_cons_zero, hC]
        | succ k =>
          simp only [List.getD_cons_succ]
          exact pass2s_correct_iff rest (rem.erase g) k (by simpa using hn)
      · rw [if_neg hg]
        cases n with
        | zero => simp [List.getD_cons_zero, hC]
        | succ k =>
          simp only [List.getD_cons_succ]
          exact pass2s_correct_iff rest rem k (by simpa using hn)

theorem pass2s_not_misplaced_of_not_mem :
    ∀ (ps : List (Nat × Correctness)) (rem : List Nat) (L : Nat) (n : Nat),
      L ∉ rem → n < ps.length → (ps.getD n (0, Correctness.Wrong)).1 = L →
      (pass2s ps rem).1.getD n Correctness.Wrong ≠ Correctness.Misplaced
  | [], _, _, n, _, hn, _ => by simp at hn
  | (g, m) :: rest, rem, L, n, hL, hn, hfst => by
    simp only [pass2s]
    by_cases hC : m = Correctness.Correct
    · rw [if_pos hC]
      cases n with
      | zero => simp [List.getD_cons_zero, hC]
      | succ k =>
        simp only [List.getD_cons_succ]
        exact pass2s_not_misplaced_of_not_mem rest rem L k hL (by simpa using hn)
          (by simpa using hfst)
    · rw [if_neg hC]
      by_cases hg : g ∈ rem
      · rw [if_pos hg]
        cases n with
        | zero =>
          simp only [List.getD_cons_zero] at hfst
          exact absurd (hfst ▸ hg) hL
        | succ k =>
          simp only [List.getD_cons_succ]
          exact pass2s_not_misplaced_of_not_mem rest (rem.erase g) L k
            (fun h => hL (List.mem_of_mem_erase h)) (by simpa using hn)
            (by simpa using hfst)
      · rw [if_neg hg]
        cases n with
        | zero => simp [List.getD_cons_zero]
        | succ k =>
          simp only [List.getD_cons_succ]
          exact pass2s_not_misplaced_of_not_mem rest rem L k hL (by simpa using hn)
            (by simpa using hfst)

theorem pass2s_misplaced_before_wrong :
    ∀ (ps : List (Nat × Correctness)) (rem : List Nat) (n n' : Nat),
      n < n' → n' < ps.length →
      (ps.getD n (0, Correctness.Wrong)).1 = (ps.getD n' (0, Correctness.Wrong)).1 →
      (pass2s ps rem).1.getD n Correctness.Wrong = Correctness.Wrong →
      (pass2s ps rem).1.getD n' Correctness.Wrong ≠ Correctness.Misplaced
  | [], _, _, n', _, hn', _, _ => by simp at hn'
  | (g, m) :: rest, rem, n, n', hnn, hn', hletter, hwrong => by
    simp only [pass2s] at hwrong ⊢
    by_cases hC : m = Correctness.Correct
    · rw [if_pos hC] at hwrong ⊢
      cases n with
      | zero => simp [List.getD_cons_zero] at hwrong
      | succ k =>
        cases n' with
        | zero => omega
        | succ k' =>
          simp only [List.getD_cons_succ] at hletter hwrong ⊢
          exact pass2s_misplaced_before_wrong rest rem k k' (by omega)
            (by simpa using hn') hletter hwrong
    · rw [if_neg hC] at hwrong ⊢
      by_cases hg : g ∈ rem
      · rw [if_pos hg] at hwrong ⊢
        cases n with
        | zero => simp [List.getD_cons_zero] at hwrong
        | succ k =>
          cases n' with
          | zero => omega
          | succ k' =>
            simp only [List.getD_cons_succ] at hletter hwrong ⊢
            exact pass2s_misplaced_before_wrong rest (rem.erase g) k k' (by omega)
              (by simpa using hn') hletter hwrong
      · rw [if_neg hg] at hwrong ⊢
        cases n with
        | zero =>
          cases n' with
          | zero => omega
          | succ k' =>
            simp only [List.getD_cons_zero] at hletter
            simp only [List.getD_cons_succ]
            exact pass2s_not_misplaced_of_not_mem rest rem _ k'
              (hletter ▸ hg) (by simpa using hn') rfl
        | succ k =>
          cases n' with
          | zero => omega
          | succ k' =>
            simp only [List.getD_cons_succ] at hletter hwrong ⊢
            exact pass2s_misplaced_before_wrong rest rem k k' (by omega)
              (by simpa using hn') hletter hwrong

theorem pair_fst {α β : Type _} (a : α) (b : β) : (a, b).1 = a := rfl

theorem pair_snd {α β : Type _} (a : α) (b : β) : (a, b).2 = b := rfl

theorem pass2s_misplaced_count :
    ∀ (ps : List (Nat × Correctness)) (rem : List Nat) (L : Nat),
      ((ps.map Prod.fst).zip (pass2s ps rem).1).countP
          (fun q => decide (q.1 = L ∧ q.2 = Correctness.Misplaced))
        = min (ps.countP fun p => decide (p.1 = L ∧ ¬ p.2 = Correctness.Correct))
            (rem.count L)
  | [], rem, L => by simp [pass2s]
  | (g, m) :: rest, rem, L => by
    simp only [pass2s, List.map_cons]
    by_cases hC : m = Correctness.Correct
    · rw [if_pos hC]
      simp only [pair_fst, pair_snd, List.zip_cons_cons, List.countP_cons]
      rw [pass2s_misplaced_count rest rem L]
      simp [hC]
    · rw [if_neg hC]
      by_cases hg : g ∈ rem
      · rw [if_pos hg]
        simp only [pair_fst, pair_snd, List.zip_cons_cons, List.countP_cons]
        rw [pass2s_misplaced_count rest (rem.erase g) L]
        by_cases hgL : g = L
        · subst hgL
          have hpos : 0 < rem.count g := List.count_pos_iff.mpr hg
          have herase : (rem.erase g).count g = rem.count g - 1 :=
            List.count_erase_self g rem
          rw [herase]
          simp [hC]
          all_goals omega
        · have herase : (rem.erase g).count L = rem.count L :=
            List.count_erase_of_ne (fun h => hgL h.symm) rem
          rw [herase]
          simp [hgL]
      · rw [if_neg hg]
        simp only [pair_fst, pair_snd, List.zip_cons_cons, List.countP_cons]
        rw [pass2s_misplaced_count rest rem L]
        by_cases hgL : g = L
        · subst hgL
          have hzero : rem.count g = 0 := List.count_eq_zero.mpr hg
          rw [hzero]
          simp [hC]
        · simp [hgL]

theorem pass2s_correct_count :
    ∀ (ps : List (Nat × Correctness)) (rem : List Nat) (L : Nat),
      ((ps.map Prod.fst).zip (pass2s ps rem).1).countP
          (fun q => decide (q.1 = L ∧ q.2 = Correctness.Correct))
        = ps.countP fun p => decide (p.1 = L ∧ p.2 = Correctness.Correct)
  | [], rem, L => by simp [pass2s]
  | (g, m) :: rest, rem, L => by
    simp only [pass2s, List.map_cons]
    by_cases hC : m = Correctness.Correct
    · rw [if_pos hC]
      simp only [pair_fst, pair_snd, List.zip_cons_cons, List.countP_cons]
      rw [pass2s_correct_count rest rem L]
      simp [hC]
    · rw [if_neg hC]
      by_cases hg : g ∈ rem
      · rw [if_pos hg]
        simp only [pair_fst, pair_snd, List.zip_cons_cons, List.countP_cons]
        rw [pass2s_correct_count rest (rem.erase g) L]
        simp [hC]
      · rw [if_neg hg]
        simp only [pair_fst, pair_snd, List.zip_cons_cons, List.countP_cons]
        rw [pass2s_correct_count rest rem L]
        simp [hC]

theorem pass2s_count_additive :
    ∀ (ps : List (Nat × Correctness)) (rem : List Nat) (L : Nat),
      rem.count L =
        ((ps.map Prod.fst).zip (pass2s ps rem).1).countP
            (fun q => decide (q.1 = L ∧ q.2 = Correctness.Misplaced))
          + ((pass2s ps rem).2).count L
  | [], rem, L => by simp [pass2s]
  | (g, m) :: rest, rem, L => by
    simp only [pass2s, List.map_cons]
    by_cases hC : m = Correctness.Correct
    · rw [if_pos hC]
      simp only [pair_fst, pair_snd, List.zip_cons_cons, List.countP_cons]
      have hrec := pass2s_count_additive rest rem L
      simp [hC] at hrec ⊢
      all_goals omega
    · rw [if_neg hC]
      by_cases hg : g ∈ rem
      · rw [if_pos hg]
        simp only [pair_fst, pair_snd, List.zip_cons_cons, List.countP_cons]
        have hrec := pass2s_count_additive rest (rem.erase g) L
        by_cases hgL : g = L
        · subst hgL
          have hpos : 0 < rem.count g := List.count_pos_iff.mpr hg
          have herase : (rem.erase g).count g = rem.count g - 1 :=
            List.count_erase_self g rem
          rw [herase] at hrec
          simp at hrec ⊢
          all_goals omega
        · have herase : (rem.erase g).count L = rem.count L :=
            List.count_erase_of_ne (fun h => hgL h.symm) rem
          rw [herase] at hrec
          simp [hgL] at hrec ⊢
          all_goals omega
      · rw [if_neg hg]
        simp only [pair_fst, pair_snd, List.zip_cons_cons, List.countP_cons]
        have hrec := pass2s_count_additive rest rem L
        simp at hrec ⊢
        all_goals omega

theorem pass2s_wrong_final_count :
    ∀ (ps : List (Nat × Correctness)) (rem : List Nat) (L : Nat) (n : Nat),
      n < ps.length → (ps.getD n (0, Correctness.Wrong)).1 = L →
      (pass2s ps rem).1.getD n Correctness.Wrong = Correctness.Wrong →
      ((pass2s ps rem).2).count L = 0
  | [], _, _, n, hn, _, _ => by simp at hn
  | (g, m) :: rest, rem, L, n, hn, hfst, hwrong => by
    simp only [pass2s] at hwrong ⊢
    by_cases hC : m = Correctness.Correct
    · rw [if_pos hC] at hwrong ⊢
      simp only [pair_fst, pair_snd] at hwrong ⊢
      cases n with
      | zero => simp [List.getD_cons_zero] at hwrong
      | succ k =>
        simp only [List.getD_cons_succ] at hwrong
        simp only [List.getD_cons_succ] at hfst
        exact pass2s_wrong_final_count rest rem L k (by simpa using hn) hfst hwrong
    · rw [if_neg hC] at hwrong ⊢
      by_cases hg : g ∈ rem
      · rw [if_pos hg] at hwrong ⊢
        simp only [pair_fst, pair_snd] at hwrong ⊢
        cases n with
        | zero => simp [List.getD_cons_zero] at hwrong
        | succ k =>
          simp only [List.getD_cons_succ] at hwrong
          simp only [List.getD_cons_succ] at hfst
          exact pass2s_wrong_final_count rest (rem.erase g) L k (by simpa using hn) hfst hwrong
      · rw [if_neg hg] at hwrong ⊢
        simp only [pair_fst, pair_snd] at hwrong ⊢
        cases n with
        | zero =>
          simp only [List.getD_cons_zero] at hfst
          have hzero : rem.count L = 0 := by
            rw [← hfst]
            exact List.count_eq_zero.mpr hg
          have hrec := pass2s_count_additive rest rem L
          omega
        | succ k =>
          simp only [List.getD_cons_succ] at hwrong
          simp only [List.getD_cons_succ] at hfst
          exact pass2s_wrong_final_count rest rem L k (by simpa using hn) hfst hwrong

/-! ### Facts about compute, in positional form -/

theorem countP_zip_range {α β : Type _} (l1 : List α) (l2 : List β) (d1 : α) (d2 : β)
    (p : α × β → Bool) (h : l1.length = l2.length) :
    (l1.zip l2).countP p = (List.range l1.length).countP (fun n => p (l1.getD n d1, l2.getD n d2)) := by
  rw [countP_eq_countP_range (l1.zip l2) p (d1, d2)]
  have hlen : (l1.zip l2).length = l1.length := by rw [List.length_zip]; omega
  rw [hlen]
  apply List.countP_congr
  intro n hn
  rw [List.mem_range] at hn
  rw [getD_zip l1 l2 d1 d2 (by omega) (by omega)]

theorem pass1mask_length (answer word : Word) :
    (pass1mask answer word).length = min answer.length word.length := by
  simp [pass1mask, List.length_zip]

theorem pass1mask_getD (answer word : Word) {n : Nat}
    (ha : n < answer.length) (hw : n < word.length) :
    (pass1mask answer word).getD n Correctness.Wrong
      = if answer.getD n 0 = word.getD n 0 then Correctness.Correct else Correctness.Wrong := by
  have hlt : n < (pass1mask answer word).length := by
    rw [pass1mask_length]; omega
  rw [List.getD_eq_getElem _ _ hlt, List.getD_eq_getElem answer _ ha,
    List.getD_eq_getElem word _ hw]
  simp [pass1mask, List.getElem_zip]

theorem compute_length (answer word : Word)
    (ha : answer.length = 5) (hw : word.length = 5) :
    (Correctness.compute answer word).length = 5 := by
  rw [compute_eq_computeSpec answer word ha hw, computeSpec, pass2s_length,
    List.length_zip, pass1mask_length]
  omega

theorem compute_correct_iff (answer word : Word)
    (ha : answer.length = 5) (hw : word.length = 5) {n : Nat} (hn : n < 5) :
    ((Correctness.compute answer word).getD n Correctness.Wrong = Correctness.Correct ↔
      answer.getD n 0 = word.getD n 0) := by
  rw [compute_eq_computeSpec answer word ha hw, computeSpec]
  have hps : (word.zip (pass1mask answer word)).length = 5 := by
    rw [List.length_zip, pass1mask_length]; omega
  rw [pass2s_correct_iff _ _ n (by omega),
    getD_zip word (pass1mask answer word) 0 Correctness.Wrong (by omega)
      (by rw [pass1mask_length]; omega)]
  rw [pair_snd, pass1mask_getD answer word (by omega) (by omega)]
  by_cases hxx : answer.getD n 0 = word.getD n 0 <;> simp [hxx]

/-- The letters of the answer left over by the first pass, counted positionally. -/
theorem leftover_count (answer word : Word)
    (ha : answer.length = 5) (hw : word.length = 5) (L : Nat) :
    (leftover answer word).count L =
      (List.range 5).countP fun p =>
        decide (answer.getD p 0 = L ∧ ¬ answer.getD p 0 = word.getD p 0) := by
  have step : ∀ (ps : List (Nat × Nat)),
      (ps.filterMap fun p => if p.1 = p.2 then none else some p.1).count L
        = ps.countP fun p => decide (p.1 = L ∧ ¬ p.1 = p.2) := by
    intro ps
    induction ps with
    | nil => rfl
    | cons q rest ih =>
      obtain ⟨q1, q2⟩ := q
      rw [List.filterMap_cons, List.countP_cons]
      by_cases hq : q1 = q2
      · rw [if_pos hq, ih, if_neg (by simp [hq])]
        omega
      · rw [if_neg hq]
        by_cases hqL : q1 = L
        · subst hqL
          rw [List.count_cons, ih, if_pos (by simp [hq])]
          simp [hq]
        · rw [List.count_cons, ih, if_neg (by simp [hqL])]
          simp [hqL]
  rw [leftover, step, countP_zip_range answer word 0 0 _ (by omega), ha]

theorem compute_misplaced_count_eq (answer word : Word)
    (ha : answer.length = 5) (hw : word.length = 5) (L : Nat) :
    (List.range 5).countP (fun j =>
        decide (word.getD j 0 = L ∧
          (Correctness.compute answer word).getD j Correctness.Wrong = Correctness.Misplaced))
      = min ((List.range 5).countP fun j =>
            decide (word.getD j 0 = L ∧
              ¬ (Correctness.compute answer word).getD j Correctness.Wrong = Correctness.Correct))
          ((leftover answer word).count L) := by
  have hps : (word.zip (pass1mask answer word)).length = 5 := by
    rw [List.length_zip, pass1mask_length]; omega
  have hmap : (word.zip (pass1mask answer word)).map Prod.fst = word :=
    List.map_fst_zip word (pass1mask answer word) (by rw [pass1mask_length]; omega)
  have hM := pass2s_misplaced_count (word.zip (pass1mask answer word)) (leftover answer word) L
  rw [hmap] at hM
  have hout : (pass2s (word.zip (pass1mask answer word)) (leftover answer word)).1
      = Correctness.compute answer word := by
    rw [compute_eq_computeSpec answer word ha hw, computeSpec]
  rw [hout] at hM
  have hlen2 : (Correctness.compute answer word).length = 5 := compute_length answer word ha hw
  rw [countP_zip_range word (Correctness.compute answer word) 0 Correctness.Wrong _ (by omega),
    hw] at hM
  rw [countP_zip_range word (pass1mask answer word) 0 Correctness.Wrong _
    (by rw [pass1mask_length]; omega), hw] at hM
  rw [hM]
  congr 1
  apply List.countP_congr
  intro n hn
  rw [List.mem_range] at hn
  have h1 : ((pass1mask answer word).getD n Correctness.Wrong = Correctness.Correct)
      ↔ ((Correctness.compute answer word).getD n Correctness.Wrong = Correctness.Correct) := by
    rw [pass1mask_getD answer word (by omega) (by omega),
      compute_correct_iff answer word ha hw hn]
    by_cases hxx : answer.getD n 0 = word.getD n 0 <;> simp [hxx]
  simp only [decide_eq_true_eq]
  constructor
  · rintro ⟨hx1, hx2⟩
    exact ⟨hx1, fun hcc => hx2 (h1.mpr hcc)⟩
  · rintro ⟨hx1, hx2⟩
    exact ⟨hx1, fun hcc => hx2 (h1.mp hcc)⟩

theorem compute_misplaced_before_wrong (answer word : Word)
    (ha : answer.length = 5) (hw : word.length = 5) {n n' : Nat}
    (hnn : n < n') (hn' : n' < 5)
    (hl : word.getD n 0 = word.getD n' 0)
    (hW : (Correctness.compute answer word).getD n Correctness.Wrong = Correctness.Wrong) :
    (Correctness.compute answer word).getD n' Correctness.Wrong ≠ Correctness.Misplaced := by
  have hps : (word.zip (pass1mask answer word)).length = 5 := by
    rw [List.length_zip, pass1mask_length]; omega
  rw [compute_eq_computeSpec answer word ha hw, computeSpec] at hW ⊢
  apply pass2s_misplaced_before_wrong _ _ n n' hnn (by omega) _ hW
  rw [getD_zip word (pass1mask answer word) 0 Correctness.Wrong (by omega)
      (by rw [pass1mask_length]; omega),
    getD_zip word (pass1mask answer word) 0 Correctness.Wrong (by omega)
      (by rw [pass1mask_length]; omega)]
  exact hl

theorem compute_answer_count (answer word : Word)
    (ha : answer.length = 5) (hw : word.length = 5) (L : Nat) :
    (List.range 5).countP (fun p =>
        decide (answer.getD p 0 = L ∧
          ¬ (Correctness.compute answer word).getD p Correctness.Wrong = Correctness.Correct))
      = (leftover answer word).count L := by
  rw [leftover_count answer word ha hw L]
  apply List.countP_congr
  intro n hn
  rw [List.mem_range] at hn
  have h1 := compute_correct_iff answer word ha hw hn
  simp only [decide_eq_true_eq]
  constructor
  · rintro ⟨hx1, hx2⟩
    exact ⟨hx1, fun hcc => hx2 (h1.mpr hcc)⟩
  · rintro ⟨hx1, hx2⟩
    exact ⟨hx1, fun hcc => hx2 (h1.mp hcc)⟩

theorem compute_misplaced_le (answer word : Word)
    (ha : answer.length = 5) (hw : word.length = 5) (L : Nat) :
    (List.range 5).countP (fun j =>
        decide (word.getD j 0 = L ∧
          (Correctness.compute answer word).getD j Correctness.Wrong = Correctness.Misplaced))
      ≤ (List.range 5).countP (fun p =>
          decide (answer.getD p 0 = L ∧
            ¬ (Correctness.compute answer word).getD p Correctness.Wrong = Correctness.Correct)) := by
  rw [compute_misplaced_count_eq answer word ha hw L, compute_answer_count answer word ha hw L]
  omega

theorem compute_wrong_count_eq (answer word : Word)
    (ha : answer.length = 5) (hw : word.length = 5) (L : Nat) {n : Nat} (hn : n < 5)
    (hl : word.getD n 0 = L)
    (hW : (Correctness.compute answer word).getD n Correctness.Wrong = Correctness.Wrong) :
    (List.range 5).countP (fun j =>
        decide (word.getD j 0 = L ∧
          (Correctness.compute answer word).getD j Correctness.Wrong = Correctness.Misplaced))
      = (List.range 5).countP (fun p =>
          decide (answer.getD p 0 = L ∧
            ¬ (Correctness.compute answer word).getD p Correctness.Wrong = Correctness.Correct)) := by
  have hps : (word.zip (pass1mask answer word)).length = 5 := by
    rw [List.length_zip, pass1mask_length]; omega
  have hmap : (word.zip (pass1mask answer word)).map Prod.fst = word :=
    List.map_fst_zip word (pass1mask answer word) (by rw [pass1mask_length]; omega)
  have hout : (pass2s (word.zip (pass1mask answer word)) (leftover answer word)).1
      = Correctness.compute answer word := by
    rw [compute_eq_computeSpec answer word ha hw, computeSpec]
  have hfst : ((word.zip (pass1mask answer word)).getD n (0, Correctness.Wrong)).1 = L := by
    rw [getD_zip word (pass1mask answer word) 0 Correctness.Wrong (by omega)
      (by rw [pass1mask_length]; omega)]
    exact hl
  have hfinal : ((pass2s (word.zip (pass1mask answer word)) (leftover answer word)).2).count L = 0 :=
    pass2s_wrong_final_count _ _ L n (by omega) hfst (by rw [hout]; exact hW)
  have hadd := pass2s_count_additive (word.zip (pass1mask answer word)) (leftover answer word) L
  rw [hmap, hout, hfinal] at hadd
  rw [countP_zip_range word (Correctness.compute answer word) 0 Correctness.Wrong _
    (by rw [compute_length answer word ha hw]; omega), hw] at hadd
  rw [compute_answer_count answer word ha hw L]
  have hmatch : List.countP (fun j =>
      decide ((List.getD word j 0, (Correctness.compute answer word).getD j Correctness.Wrong).1 = L ∧
        (List.getD word j 0, (Correctness.compute answer word).getD j Correctness.Wrong).2 =
          Correctness.Misplaced)) (List.range 5)
      = List.countP (fun j => decide (List.getD word j 0 = L ∧
          (Correctness.compute answer word).getD j Correctness.Wrong = Correctness.Misplaced))
        (List.range 5) := by
    apply List.countP_congr
    intro j hj
    rw [pair_fst, pair_snd]
  rw [hmatch] at hadd
  omega

/-! ### The inner scan of matches, for a candidate equal to the answer -/

theorem drop_zip_cons {α β : Type _} (l1 : List α) (l2 : List β) (d1 : α) (d2 : β)
    {j : Nat} (h1 : j < l1.length) (h2 : j < l2.length) :
    (l1.zip l2).drop j = (l1.getD j d1, l2.getD j d2) :: (l1.zip l2).drop (j + 1) := by
  rw [List.drop_eq_getElem_cons (show j < (l1.zip l2).length by rw [List.length_zip]; omega)]
  congr 1
  rw [List.getElem_zip]
  congr 1
  · exact (List.getD_eq_getElem l1 d1 h1).symm
  · exact (List.getD_eq_getElem l2 d2 h2).symm

theorem innerLoop_consumes (w : Word) (mask : List Correctness)
    (hw : w.length = 5) (hm : mask.length = 5) (i wc : Nat)
    (hne : w.getD i 0 ≠ wc)
    (hMW : ∀ n n', n < n' → n' < 5 → w.getD n 0 = w.getD n' 0 →
        mask.getD n Correctness.Wrong = Correctness.Wrong →
        mask.getD n' Correctness.Wrong ≠ Correctness.Misplaced) :
    ∀ (as : List (Nat × Correctness)) (j₀ : Nat) (used : List Bool),
      as = (w.zip mask).drop j₀ →
      (∃ jm, j₀ ≤ jm ∧ jm < 5 ∧ w.getD jm 0 = wc ∧
        mask.getD jm Correctness.Wrong = Correctness.Misplaced ∧ used.getD jm false = false) →
      ∃ jm, innerLoop i wc used as j₀ = ScanResult.consumed (used.set jm true) ∧
        jm < 5 ∧ w.getD jm 0 = wc ∧ mask.getD jm Correctness.Wrong = Correctness.Misplaced ∧
        used.getD jm false = false
  | [], j₀, used, hdrop, hex => by
    exfalso
    obtain ⟨jm, h1, h2, _⟩ := hex
    have hlen : (w.zip mask).length = 5 := by rw [List.length_zip]; omega
    have : (5 : Nat) - j₀ = 0 := by
      have := congrArg List.length hdrop
      simp [List.length_drop, hlen] at this
      omega
    omega
  | (g, m) :: tl, j₀, used, hdrop, hex => by
    have hlen : (w.zip mask).length = 5 := by rw [List.length_zip]; omega
    have hj₀5 : j₀ < 5 := by
      by_contra hcon
      rw [List.drop_eq_nil_of_le (by omega)] at hdrop
      exact List.noConfusion hdrop
    have hcons : (w.zip mask).drop j₀ = (w.getD j₀ 0, mask.getD j₀ Correctness.Wrong)
        :: (w.zip mask).drop (j₀ + 1) :=
      drop_zip_cons w mask 0 Correctness.Wrong (by omega) (by omega)
    rw [hcons] at hdrop
    obtain ⟨hg, hm', htl⟩ : g = w.getD j₀ 0 ∧ m = mask.getD j₀ Correctness.Wrong
        ∧ tl = (w.zip mask).drop (j₀ + 1) := by
      have h1 := List.head_eq_of_cons_eq hdrop
      have h2 := List.tail_eq_of_cons_eq hdrop
      exact ⟨congrArg Prod.fst h1, congrArg Prod.snd h1, h2⟩
    simp only [innerLoop]
    by_cases hskip : g ≠ wc ∨ used.getD j₀ false = true
    · rw [if_pos hskip]
      apply innerLoop_consumes w mask hw hm i wc hne hMW tl (j₀ + 1) used htl
      obtain ⟨jm, hj1, hj2, hj3, hj4, hj5⟩ := hex
      refine ⟨jm, ?_, hj2, hj3, hj4, hj5⟩
      rcases Nat.lt_or_ge j₀ jm with h | h
      · omega
      · have hjm_eq : jm = j₀ := by omega
        subst hjm_eq
        exfalso
        rcases hskip with h' | h'
        · exact h' (hg ▸ hj3)
        · rw [hj5] at h'
          exact Bool.noConfusion h'
    · rw [if_neg hskip]
      push_neg at hskip
      obtain ⟨hgwc, hused⟩ := hskip
      have hused' : used.getD j₀ false = false := by
        revert hused; cases used.getD j₀ false <;> simp
      rcases hmv : m with _ | _ | _
      · apply innerLoop_consumes w mask hw hm i wc hne hMW tl (j₀ + 1) used htl
        obtain ⟨jm, hj1, hj2, hj3, hj4, hj5⟩ := hex
        refine ⟨jm, ?_, hj2, hj3, hj4, hj5⟩
        have : jm ≠ j₀ := by
          intro hcon
          subst hcon
          rw [← hm', hmv] at hj4
          exact Correctness.noConfusion hj4
        omega
      · have hji : j₀ ≠ i := by
          intro hcon
          subst hcon
          exact hne (hg ▸ hgwc)
        rw [if_pos hji]
        exact ⟨j₀, rfl, hj₀5, hg ▸ hgwc, hm'.symm.trans hmv, hused'⟩
      · exfalso
        obtain ⟨jm, hj1, hj2, hj3, hj4, hj5⟩ := hex
        have hjne : j₀ ≠ jm := by
          intro hcon
          rw [← hcon, ← hm', hmv] at hj4
          exact Correctness.noConfusion hj4
        exact hMW j₀ jm (by omega) hj2 (by rw [← hg, hgwc, hj3])
          (by rw [← hm', hmv]) hj4

theorem innerLoop_falls (w : Word) (mask : List Correctness)
    (hw : w.length = 5) (hm : mask.length = 5) (i wc : Nat) :
    ∀ (as : List (Nat × Correctness)) (j₀ : Nat) (used : List Bool),
      as = (w.zip mask).drop j₀ →
      (∀ j, j₀ ≤ j → j < 5 → w.getD j 0 = wc →
        mask.getD j Correctness.Wrong = Correctness.Misplaced → used.getD j false = true) →
      (∀ j, j₀ ≤ j → j < 5 → w.getD j 0 = wc →
        mask.getD j Correctness.Wrong ≠ Correctness.Wrong) →
      innerLoop i wc used as j₀ = ScanResult.fallthrough
  | [], _, _, _, _, _ => rfl
  | (g, m) :: tl, j₀, used, hdrop, hall, hnoW => by
    have hlen : (w.zip mask).length = 5 := by rw [List.length_zip]; omega
    have hj₀5 : j₀ < 5 := by
      by_contra hcon
      rw [List.drop_eq_nil_of_le (by omega)] at hdrop
      exact List.noConfusion hdrop
    have hcons : (w.zip mask).drop j₀ = (w.getD j₀ 0, mask.getD j₀ Correctness.Wrong)
        :: (w.zip mask).drop (j₀ + 1) :=
      drop_zip_cons w mask 0 Correctness.Wrong (by omega) (by omega)
    rw [hcons] at hdrop
    obtain ⟨hg, hm', htl⟩ : g = w.getD j₀ 0 ∧ m = mask.getD j₀ Correctness.Wrong
        ∧ tl = (w.zip mask).drop (j₀ + 1) := by
      have h1 := List.head_eq_of_cons_eq hdrop
      have h2 := List.tail_eq_of_cons_eq hdrop
      exact ⟨congrArg Prod.fst h1, congrArg Prod.snd h1, h2⟩
    simp only [innerLoop]
    by_cases hskip : g ≠ wc ∨ used.getD j₀ false = true
    · rw [if_pos hskip]
      exact innerLoop_falls w mask hw hm i wc tl (j₀ + 1) used htl
        (fun j ha1 ha2 ha3 ha4 => hall j (by omega) ha2 ha3 ha4)
        (fun j ha1 ha2 ha3 => hnoW j (by omega) ha2 ha3)
    · rw [if_neg hskip]
      push_neg at hskip
      obtain ⟨hgwc, hused⟩ := hskip
      rcases hmv : m with _ | _ | _
      · exact innerLoop_falls w mask hw hm i wc tl (j₀ + 1) used htl
          (fun j ha1 ha2 ha3 ha4 => hall j (by omega) ha2 ha3 ha4)
          (fun j ha1 ha2 ha3 => hnoW j (by omega) ha2 ha3)
      · exfalso
        have := hall j₀ (Nat.le_refl j₀) hj₀5 (hg ▸ hgwc) (by rw [← hm', hmv])
        rw [this] at hused
        exact hused rfl
      · exact absurd (by rw [← hm', hmv]) (hnoW j₀ (Nat.le_refl j₀) hj₀5 (hg ▸ hgwc))

/-! ### The outer loop of matches accepts the true answer -/

theorem consumed_count_conv (w : Word) (mask : List Correctness) (used : List Bool)
    (L : Nat) (l : List Nat) :
    l.countP (fun j => decide (w.getD j 0 = L ∧
        mask.getD j Correctness.Wrong = Correctness.Misplaced ∧ used.getD j false = true))
      = l.countP (fun j => (decide (w.getD j 0 = L ∧
          mask.getD j Correctness.Wrong = Correctness.Misplaced)) && used.getD j false) := by
  apply List.countP_congr
  intro x _
  cases hb : used.getD x false <;> simp [hb]

theorem outerLoop_refl_aux (A w : Word) (mask : List Correctness)
    (hA : A.length = 5) (hw : w.length = 5) (hm : mask.length = 5)
    (hciff : ∀ n, n < 5 → (mask.getD n Correctness.Wrong = Correctness.Correct ↔
        A.getD n 0 = w.getD n 0))
    (hMW : ∀ n n', n < n' → n' < 5 → w.getD n 0 = w.getD n' 0 →
        mask.getD n Correctness.Wrong = Correctness.Wrong →
        mask.getD n' Correctness.Wrong ≠ Correctness.Misplaced)
    (hle : ∀ L, (List.range 5).countP (fun j => decide (w.getD j 0 = L ∧
          mask.getD j Correctness.Wrong = Correctness.Misplaced))
        ≤ (List.range 5).countP fun p => decide (A.getD p 0 = L ∧
            ¬ mask.getD p Correctness.Wrong = Correctness.Correct))
    (hWeq : ∀ L n, n < 5 → w.getD n 0 = L →
        mask.getD n Correctness.Wrong = Correctness.Wrong →
        (List.range 5).countP (fun j => decide (w.getD j 0 = L ∧
            mask.getD j Correctness.Wrong = Correctness.Misplaced))
          = (List.range 5).countP fun p => decide (A.getD p 0 = L ∧
              ¬ mask.getD p Correctness.Wrong = Correctness.Correct)) :
    ∀ (ts : List ((Nat × Correctness) × Nat)) (i : Nat) (used : List Bool),
      ts = ((w.zip mask).zip A).drop i → i ≤ 5 → used.length = 5 →
      (∀ L, (List.range 5).countP (fun j => decide (w.getD j 0 = L ∧
            mask.getD j Correctness.Wrong = Correctness.Misplaced ∧
            used.getD j false = true))
          = min ((List.range i).countP fun p => decide (A.getD p 0 = L ∧
                ¬ mask.getD p Correctness.Wrong = Correctness.Correct))
              ((List.range 5).countP fun j => decide (w.getD j 0 = L ∧
                mask.getD j Correctness.Wrong = Correctness.Misplaced))) →
      ∃ u', outerLoop (w.zip mask) ts i used = some u' ∧ u'.length = 5 ∧
        ∀ j, mask.getD j Correctness.Wrong = Correctness.Misplaced →
          u'.getD j false = true
  | [], i, used, hdrop, hi5, hulen, hinv => by
    have hzz : ((w.zip mask).zip A).length = 5 := by
      simp [List.length_zip]
      omega
    have hi : i = 5 := by
      have := congrArg List.length hdrop
      simp [List.length_drop, hzz] at this
      omega
    subst hi
    refine ⟨used, rfl, hulen, ?_⟩
    intro j hj
    have hj5 : j < 5 := by
      by_contra hcon
      rw [getD_default_of_le mask Correctness.Wrong (by omega)] at hj
      exact Correctness.noConfusion hj
    have h1 := hinv (w.getD j 0)
    have h2 := hle (w.getD j 0)
    rw [consumed_count_conv w mask used (w.getD j 0) (List.range 5)] at h1
    have heq : (List.range 5).countP (fun x => (decide (w.getD x 0 = w.getD j 0 ∧
        mask.getD x Correctness.Wrong = Correctness.Misplaced)) && used.getD x false)
        = (List.range 5).countP (fun x => decide (w.getD x 0 = w.getD j 0 ∧
            mask.getD x Correctness.Wrong = Correctness.Misplaced)) := by
      omega
    exact imp_of_countP_and_eq heq j (List.mem_range.mpr hj5) (decide_eq_true ⟨rfl, hj⟩)
  | ((g, m), wc) :: tl, i, used, hdrop, hi5, hulen, hinv => by
    have hzip5 : (w.zip mask).length = 5 := by rw [List.length_zip]; omega
    have hzz : ((w.zip mask).zip A).length = 5 := by rw [List.length_zip]; omega
    have hilt : i < 5 := by
      by_contra hcon
      rw [List.drop_eq_nil_of_le (by omega)] at hdrop
      exact List.noConfusion hdrop
    have hcons : ((w.zip mask).zip A).drop i
        = ((w.getD i 0, mask.getD i Correctness.Wrong), A.getD i 0)
          :: ((w.zip mask).zip A).drop (i + 1) := by
      rw [drop_zip_cons (w.zip mask) A (0, Correctness.Wrong) 0 (by omega) (by omega),
        getD_zip w mask 0 Correctness.Wrong (by omega) (by omega)]
    rw [hcons] at hdrop
    have hhead := List.head_eq_of_cons_eq hdrop
    have htl := List.tail_eq_of_cons_eq hdrop
    have hg : g = w.getD i 0 := congrArg (fun x => x.1.1) hhead
    have hm' : m = mask.getD i Correctness.Wrong := congrArg (fun x => x.1.2) hhead
    have hwc : wc = A.getD i 0 := congrArg (fun x => x.2) hhead
    simp only [outerLoop]
    by_cases hCm : m = Correctness.Correct
    · rw [if_pos hCm]
      have hCi : mask.getD i Correctness.Wrong = Correctness.Correct := hm' ▸ hCm
      have hAiwi : A.getD i 0 = w.getD i 0 := (hciff i (by omega)).mp hCi
      rw [if_neg (show ¬ wc ≠ g by
        intro hne2
        exact hne2 (by rw [hwc, hg, hAiwi]))]
      apply outerLoop_refl_aux A w mask hA hw hm hciff hMW hle hWeq tl (i + 1)
        (used.set i true) htl (by omega) (by rw [List.length_set]; exact hulen)
      intro L
      have e1 : (List.range 5).countP (fun j => decide (w.getD j 0 = L ∧
            mask.getD j Correctness.Wrong = Correctness.Misplaced ∧
            (used.set i true).getD j false = true))
          = (List.range 5).countP (fun j => decide (w.getD j 0 = L ∧
              mask.getD j Correctness.Wrong = Correctness.Misplaced ∧
              used.getD j false = true)) := by
        apply List.countP_congr
        intro x _
        by_cases hxi : x = i
        · subst hxi
          have hMne : mask.getD x Correctness.Wrong ≠ Correctness.Misplaced := by
            rw [hCi]
            exact fun h => Correctness.noConfusion h
          rw [decide_eq_false (fun hcon => hMne hcon.2.1),
            decide_eq_false (fun hcon => hMne hcon.2.1)]
        · rw [getD_set_ne used (fun h => hxi h.symm)]
      have e2 : (List.range (i + 1)).countP (fun p => decide (A.getD p 0 = L ∧
            ¬ mask.getD p Correctness.Wrong = Correctness.Correct))
          = (List.range i).countP (fun p => decide (A.getD p 0 = L ∧
              ¬ mask.getD p Correctness.Wrong = Correctness.Correct)) := by
        rw [countP_range_succ, decide_eq_false (show ¬ (A.getD i 0 = L ∧
          ¬ mask.getD i Correctness.Wrong = Correctness.Correct)
            from fun hcon => hcon.2 hCi)]
        simp
      rw [e1, e2]
      exact hinv L
    · rw [if_neg hCm]
      have hCi : ¬ mask.getD i Correctness.Wrong = Correctness.Correct := hm' ▸ hCm
      have hAne : ¬ A.getD i 0 = w.getD i 0 := fun h => hCi ((hciff i (by omega)).mpr h)
      have hne : w.getD i 0 ≠ wc := by
        rw [hwc]
        exact fun h => hAne h.symm
      set L0 := A.getD i 0 with hL0
      have hwcL : wc = L0 := hwc
      have hconv := consumed_count_conv w mask used L0 (List.range 5)
      have hinvA := hinv L0
      have hpredi : (decide (A.getD i 0 = L0 ∧
          ¬ mask.getD i Correctness.Wrong = Correctness.Correct)) = true :=
        decide_eq_true ⟨hL0.symm, hCi⟩
      by_cases hlt : (List.range i).countP (fun p => decide (A.getD p 0 = L0 ∧
            ¬ mask.getD p Correctness.Wrong = Correctness.Correct))
          < (List.range 5).countP (fun j => decide (w.getD j 0 = L0 ∧
              mask.getD j Correctness.Wrong = Correctness.Misplaced))
      · have hexists : ∃ x ∈ List.range 5, (decide (w.getD x 0 = L0 ∧
              mask.getD x Correctness.Wrong = Correctness.Misplaced)) = true ∧
              used.getD x false = false := by
          apply exists_of_countP_and_lt
          rw [← hconv, hinvA]
          omega
        obtain ⟨jm0, hjm0mem, hjm0p, hjm0u⟩ := hexists
        have hjm0 := of_decide_eq_true hjm0p
        obtain ⟨jm, hscan, hjm5, hjmw, hjmM, hjmu⟩ :=
          innerLoop_consumes w mask hw hm i wc hne hMW (w.zip mask) 0 used
            (by rw [List.drop_zero])
            ⟨jm0, Nat.zero_le _, by simpa using hjm0mem,
              by rw [hjm0.1, hwcL], hjm0.2, hjm0u⟩
        have hjmL : w.getD jm 0 = L0 := hjmw.trans hwcL
        rw [hscan]
        apply outerLoop_refl_aux A w mask hA hw hm hciff hMW hle hWeq tl (i + 1)
          (used.set jm true) htl (by omega) (by rw [List.length_set]; exact hulen)
        intro L
        by_cases hLL : L = L0
        · subst hLL
          have hup : (List.range 5).countP (fun j => decide (w.getD j 0 = L0 ∧
                mask.getD j Correctness.Wrong = Correctness.Misplaced ∧
                (used.set jm true).getD j false = true))
              = (List.range 5).countP (fun j => decide (w.getD j 0 = L0 ∧
                  mask.getD j Correctness.Wrong = Correctness.Misplaced ∧
                  used.getD j false = true)) + 1 := by
            apply countP_update_true (List.range 5) (List.nodup_range 5) jm
              (List.mem_range.mpr hjm5)
            · intro x _ hxjm
              rw [getD_set_ne used (fun h => hxjm h.symm)]
            · apply decide_eq_false
              intro hcon
              rw [hjmu] at hcon
              exact Bool.noConfusion hcon.2.2
            · apply decide_eq_true
              exact ⟨hjmL, hjmM, getD_set_self used true false (by omega)⟩
          have e2 : (List.range (i + 1)).countP (fun p => decide (A.getD p 0 = L0 ∧
                ¬ mask.getD p Correctness.Wrong = Correctness.Correct))
              = (List.range i).countP (fun p => decide (A.getD p 0 = L0 ∧
                  ¬ mask.getD p Correctness.Wrong = Correctness.Correct)) + 1 := by
            rw [countP_range_succ, hpredi]
            simp
          rw [hup, e2, hinvA]
          omega
        · have hup : (List.range 5).countP (fun j => decide (w.getD j 0 = L ∧
                mask.getD j Correctness.Wrong = Correctness.Misplaced ∧
                (used.set jm true).getD j false = true))
              = (List.range 5).countP (fun j => decide (w.getD j 0 = L ∧
                  mask.getD j Correctness.Wrong = Correctness.Misplaced ∧
                  used.getD j false = true)) := by
            apply List.countP_congr
            intro x _
            by_cases hxjm : x = jm
            · subst hxjm
              have hxL : ¬ w.getD x 0 = L := by
                rw [hjmL]
                exact fun h => hLL h.symm
              rw [decide_eq_false (fun hcon => hxL hcon.1),
                decide_eq_false (fun hcon => hxL hcon.1)]
            · rw [getD_set_ne used (fun h => hxjm h.symm)]
          have e2 : (List.range (i + 1)).countP (fun p => decide (A.getD p 0 = L ∧
                ¬ mask.getD p Correctness.Wrong = Correctness.Correct))
              = (List.range i).countP (fun p => decide (A.getD p 0 = L ∧
                  ¬ mask.getD p Correctness.Wrong = Correctness.Correct)) := by
            rw [countP_range_succ, decide_eq_false (show ¬ (A.getD i 0 = L ∧
              ¬ mask.getD i Correctness.Wrong = Correctness.Correct)
                from fun hcon => hLL (hL0.trans hcon.1).symm)]
            simp
          rw [hup, e2]
          exact hinv L
      · have heq : (List.range 5).countP (fun x => (decide (w.getD x 0 = L0 ∧
              mask.getD x Correctness.Wrong = Correctness.Misplaced)) && used.getD x false)
            = (List.range 5).countP (fun x => decide (w.getD x 0 = L0 ∧
                mask.getD x Correctness.Wrong = Correctness.Misplaced)) := by
          rw [← hconv, hinvA]
          omega
        have hall := imp_of_countP_and_eq heq
        have hnoW : ∀ j, 0 ≤ j → j < 5 → w.getD j 0 = wc →
            mask.getD j Correctness.Wrong ≠ Correctness.Wrong := by
          intro j _ hj5 hjw hjW
          have h4 := hWeq L0 j hj5 (hjw.trans hwcL) hjW
          have h5 := countP_range_lt_of (p := fun p => decide (A.getD p 0 = L0 ∧
              ¬ mask.getD p Correctness.Wrong = Correctness.Correct)) hilt hpredi
          omega
        rw [innerLoop_falls w mask hw hm i wc (w.zip mask) 0 used (by rw [List.drop_zero])
          (fun j _ hj5 hjw hjM => hall j (List.mem_range.mpr hj5)
            (decide_eq_true ⟨hjw.trans hwcL, hjM⟩)) hnoW]
        apply outerLoop_refl_aux A w mask hA hw hm hciff hMW hle hWeq tl (i + 1)
          used htl (by omega) hulen
        intro L
        by_cases hLL : L = L0
        · subst hLL
          have e2 : (List.range (i + 1)).countP (fun p => decide (A.getD p 0 = L0 ∧
                ¬ mask.getD p Correctness.Wrong = Correctness.Correct))
              = (List.range i).countP (fun p => decide (A.getD p 0 = L0 ∧
                  ¬ mask.getD p Correctness.Wrong = Correctness.Correct)) + 1 := by
            rw [countP_range_succ, hpredi]
            simp
          rw [e2, hinvA]
          omega
        · have e2 : (List.range (i + 1)).countP (fun p => decide (A.getD p 0 = L ∧
                ¬ mask.getD p Correctness.Wrong = Correctness.Correct))
              = (List.range i).countP (fun p => decide (A.getD p 0 = L ∧
                  ¬ mask.getD p Correctness.Wrong = Correctness.Correct)) := by
            rw [countP_range_succ, decide_eq_false (show ¬ (A.getD i 0 = L ∧
              ¬ mask.getD i Correctness.Wrong = Correctness.Correct)
                from fun hcon => hLL (hL0.trans hcon.1).symm)]
            simp
          rw [e2]
          exact hinv L

/-- Reflexivity of the hardened matcher: checking any 5-letter word against a
5-letter answer always yields a guess that the answer itself still matches. -/
theorem matches_check_self (A w : Word) (ha : A.length = 5) (hw : w.length = 5) :
    (Guess.check A w).matches A = true := by
  have hm : (Correctness.compute A w).length = 5 := compute_length A w ha hw
  obtain ⟨u', hsome, hulen, hall⟩ :=
    outerLoop_refl_aux A w (Correctness.compute A w) ha hw hm
      (fun n hn => compute_correct_iff A w ha hw hn)
      (fun n n' h1 h2 h3 h4 => compute_misplaced_before_wrong A w ha hw h1 h2 h3 h4)
      (fun L => compute_misplaced_le A w ha hw L)
      (fun L n h1 h2 h3 => compute_wrong_count_eq A w ha hw L h1 h2 h3)
      ((w.zip (Correctness.compute A w)).zip A) 0 (List.replicate 5 false)
      (by rw [List.drop_zero]) (by omega) (by simp)
      (by
        intro L
        have hz : (List.range 5).countP (fun j => decide (w.getD j 0 = L ∧
            (Correctness.compute A w).getD j Correctness.Wrong = Correctness.Misplaced ∧
            (List.replicate 5 false).getD j false = true)) = 0 := by
          apply List.countP_eq_zero.mpr
          intro x _
          intro hcon
          have hcon' := of_decide_eq_true hcon
          rw [getD_replicate_any] at hcon'
          exact Bool.noConfusion hcon'.2.2
        rw [hz]
        simp)
  rw [Guess.check, Guess.matches]
  simp only
  rw [hsome]
  apply List.all_eq_true.mpr
  intro p hp
  obtain ⟨n, hn, hpn⟩ := List.getElem_of_mem hp
  have hn1 : n < (Correctness.compute A w).length := by
    rw [List.length_zip] at hn
    omega
  have hn2 : n < u'.length := by
    rw [List.length_zip] at hn
    omega
  rw [List.getElem_zip] at hpn
  rw [← hpn]
  rw [if_neg]
  intro hcon
  have hc1 : (Correctness.compute A w)[n] = Correctness.Misplaced := hcon.1
  have hc2 : u'[n] = false := hcon.2
  have h1 : (Correctness.compute A w).getD n Correctness.Wrong = Correctness.Misplaced := by
    rw [List.getD_eq_getElem _ _ hn1]
    exact hc1
  have h2 := hall n h1
  rw [List.getD_eq_getElem _ _ hn2, hc2] at h2
  exact Bool.noConfusion h2

/-! ### General characterization of the matches loops -/

theorem innerLoop_consumed_len (i wc : Nat) :
    ∀ (as : List (Nat × Correctness)) (j₀ : Nat) (used u' : List Bool),
      innerLoop i wc used as j₀ = ScanResult.consumed u' → u'.length = used.length
  | [], _, _, _, h => ScanResult.noConfusion h
  | (g, m) :: tl, j₀, used, u', h => by
    simp only [innerLoop] at h
    by_cases hskip : g ≠ wc ∨ used.getD j₀ false = true
    · rw [if_pos hskip] at h
      exact innerLoop_consumed_len i wc tl (j₀ + 1) used u' h
    · rw [if_neg hskip] at h
      rcases m with _ | _ | _
      · exact innerLoop_consumed_len i wc tl (j₀ + 1) used u' h
      · by_cases hji : j₀ ≠ i
        · rw [if_pos hji] at h
          have := ScanResult.consumed.inj h
          rw [← this, List.length_set]
        · rw [if_neg hji] at h
          exact ScanResult.noConfusion h
      · exact ScanResult.noConfusion h

theorem innerLoop_consumed_spec (w : Word) (mask : List Correctness)
    (hw : w.length = 5) (hm : mask.length = 5) (i wc : Nat) :
    ∀ (as : List (Nat × Correctness)) (j₀ : Nat) (used u' : List Bool),
      as = (w.zip mask).drop j₀ →
      innerLoop i wc used as j₀ = ScanResult.consumed u' →
      ∃ jm, j₀ ≤ jm ∧ jm < 5 ∧ jm ≠ i ∧ u' = used.set jm true ∧ w.getD jm 0 = wc ∧
        mask.getD jm Correctness.Wrong = Correctness.Misplaced ∧ used.getD jm false = false
  | [], _, _, _, _, h => ScanResult.noConfusion h
  | (g, m) :: tl, j₀, used, u', hdrop, h => by
    have hzip5 : (w.zip mask).length = 5 := by rw [List.length_zip]; omega
    have hj₀5 : j₀ < 5 := by
      by_contra hcon
      rw [List.drop_eq_nil_of_le (by omega)] at hdrop
      exact List.noConfusion hdrop
    have hcons : (w.zip mask).drop j₀ = (w.getD j₀ 0, mask.getD j₀ Correctness.Wrong)
        :: (w.zip mask).drop (j₀ + 1) :=
      drop_zip_cons w mask 0 Correctness.Wrong (by omega) (by omega)
    rw [hcons] at hdrop
    have hhead := List.head_eq_of_cons_eq hdrop
    have htl := List.tail_eq_of_cons_eq hdrop
    have hg : g = w.getD j₀ 0 := congrArg Prod.fst hhead
    have hm' : m = mask.getD j₀ Correctness.Wrong := congrArg Prod.snd hhead
    simp only [innerLoop] at h
    by_cases hskip : g ≠ wc ∨ used.getD j₀ false = true
    · rw [if_pos hskip] at h
      obtain ⟨jm, h1, h2, h3, h4, h5, h6, h7⟩ :=
        innerLoop_consumed_spec w mask hw hm i wc tl (j₀ + 1) used u' htl h
      exact ⟨jm, by omega, h2, h3, h4, h5, h6, h7⟩
    · rw [if_neg hskip] at h
      push_neg at hskip
      obtain ⟨hgwc, hused⟩ := hskip
      have hused' : used.getD j₀ false = false := by
        revert hused; cases used.getD j₀ false <;> simp
      rcases hmv : m with _ | _ | _ <;> rw [hmv] at h
      · obtain ⟨jm, h1, h2, h3, h4, h5, h6, h7⟩ :=
          innerLoop_consumed_spec w mask hw hm i wc tl (j₀ + 1) used u' htl h
        exact ⟨jm, by omega, h2, h3, h4, h5, h6, h7⟩
      · by_cases hji : j₀ ≠ i
        · rw [if_pos hji] at h
          have := ScanResult.consumed.inj h
          exact ⟨j₀, Nat.le_refl j₀, hj₀5, hji, this.symm, hg ▸ hgwc,
            hm'.symm.trans hmv, hused'⟩
        · rw [if_neg hji] at h
          exact ScanResult.noConfusion h
      · exact ScanResult.noConfusion h

theorem outerLoop_some_length (gp : List (Nat × Correctness)) :
    ∀ (ts : List ((Nat × Correctness) × Nat)) (k : Nat) (used u' : List Bool),
      outerLoop gp ts k used = some u' → u'.length = used.length
  | [], _, _, _, h => by
    simp only [outerLoop] at h
    rw [← Option.some.inj h]
  | ((g, m), wc) :: tl, k, used, u', h => by
    simp only [outerLoop] at h
    by_cases hC : m = Correctness.Correct
    · rw [if_pos hC] at h
      by_cases hwg : wc ≠ g
      · rw [if_pos hwg] at h
        exact Option.noConfusion h
      · rw [if_neg hwg] at h
        have := outerLoop_some_length gp tl (k + 1) (used.set k true) u' h
        rw [this, List.length_set]
    · rw [if_neg hC] at h
      rcases hscan : innerLoop k wc used gp 0 with _ | u'' | _ <;> rw [hscan] at h
      · exact Option.noConfusion h
      · have h1 := outerLoop_some_length gp tl (k + 1) u'' u' h
        have h2 := innerLoop_consumed_len k wc gp 0 used u'' hscan
        omega
      · exact outerLoop_some_length gp tl (k + 1) used u' h

theorem innerLoop_rejects (w : Word) (mask : List Correctness)
    (hw : w.length = 5) (hm : mask.length = 5) (i wc : Nat)
    (hnoM : ∀ j, j < 5 → w.getD j 0 = wc →
      mask.getD j Correctness.Wrong ≠ Correctness.Misplaced) :
    ∀ (as : List (Nat × Correctness)) (j₀ : Nat) (used : List Bool),
      as = (w.zip mask).drop j₀ →
      (∃ jw, j₀ ≤ jw ∧ jw < 5 ∧ w.getD jw 0 = wc ∧
        mask.getD jw Correctness.Wrong = Correctness.Wrong ∧ used.getD jw false = false) →
      innerLoop i wc used as j₀ = ScanResult.reject
  | [], j₀, used, hdrop, hex => by
    exfalso
    obtain ⟨jw, h1, h2, _⟩ := hex
    have hzip5 : (w.zip mask).length = 5 := by rw [List.length_zip]; omega
    have := congrArg List.length hdrop
    simp [List.length_drop, hzip5] at this
    omega
  | (g, m) :: tl, j₀, used, hdrop, hex => by
    have hzip5 : (w.zip mask).length = 5 := by rw [List.length_zip]; omega
    have hj₀5 : j₀ < 5 := by
      by_contra hcon
      rw [List.drop_eq_nil_of_le (by omega)] at hdrop
      exact List.noConfusion hdrop
    have hcons : (w.zip mask).drop j₀ = (w.getD j₀ 0, mask.getD j₀ Correctness.Wrong)
        :: (w.zip mask).drop (j₀ + 1) :=
      drop_zip_cons w mask 0 Correctness.Wrong (by omega) (by omega)
    rw [hcons] at hdrop
    have hhead := List.head_eq_of_cons_eq hdrop
    have htl := List.tail_eq_of_cons_eq hdrop
    have hg : g = w.getD j₀ 0 := congrArg Prod.fst hhead
    have hm' : m = mask.getD j₀ Correctness.Wrong := congrArg Prod.snd hhead
    simp only [innerLoop]
    by_cases hskip : g ≠ wc ∨ used.getD j₀ false = true
    · rw [if_pos hskip]
      apply innerLoop_rejects w mask hw hm i wc hnoM tl (j₀ + 1) used htl
      obtain ⟨jw, h1, h2, h3, h4, h5⟩ := hex
      refine ⟨jw, ?_, h2, h3, h4, h5⟩
      rcases Nat.lt_or_ge j₀ jw with hc | hc
      · omega
      · have : jw = j₀ := by omega
        subst this
        exfalso
        rcases hskip with h' | h'
        · exact h' (hg ▸ h3)
        · rw [h5] at h'
          exact Bool.noConfusion h'
    · rw [if_neg hskip]
      push_neg at hskip
      obtain ⟨hgwc, hused⟩ := hskip
      rcases hmv : m with _ | _ | _
      · apply innerLoop_rejects w mask hw hm i wc hnoM tl (j₀ + 1) used htl
        obtain ⟨jw, h1, h2, h3, h4, h5⟩ := hex
        refine ⟨jw, ?_, h2, h3, h4, h5⟩
        have : jw ≠ j₀ := by
          intro hcon
          subst hcon
          rw [← hm', hmv] at h4
          exact Correctness.noConfusion h4
        omega
      · exact absurd (hm'.symm.trans hmv) (hnoM j₀ hj₀5 (hg ▸ hgwc))
      · rfl

theorem outerLoop_none_of_wrong (w : Word) (mask : List Correctness) (c : Word)
    (hw : w.length = 5) (hm : mask.length = 5) (hc : c.length = 5) (i : Nat) (hi : i < 5)
    (hW : mask.getD i Correctness.Wrong = Correctness.Wrong)
    (hcw : c.getD i 0 = w.getD i 0)
    (hnoM : ∀ j, j < 5 → w.getD j 0 = w.getD i 0 →
      mask.getD j Correctness.Wrong ≠ Correctness.Misplaced) :
    ∀ (ts : List ((Nat × Correctness) × Nat)) (k : Nat) (used : List Bool),
      ts = ((w.zip mask).zip c).drop k → k ≤ i → used.length = 5 →
      (∀ j, used.getD j false = true → mask.getD j Correctness.Wrong ≠ Correctness.Wrong) →
      outerLoop (w.zip mask) ts k used = none
  | [], k, used, hdrop, hki, _, _ => by
    exfalso
    have hzip5 : (w.zip mask).length = 5 := by rw [List.length_zip]; omega
    have hzz : ((w.zip mask).zip c).length = 5 := by rw [List.length_zip]; omega
    have := congrArg List.length hdrop
    simp [List.length_drop, hzz] at this
    omega
  | ((g, m), wc) :: tl, k, used, hdrop, hki, hulen, hinv => by
    have hzip5 : (w.zip mask).length = 5 := by rw [List.length_zip]; omega
    have hk5 : k < 5 := by omega
    have hcons : ((w.zip mask).zip c).drop k
        = ((w.getD k 0, mask.getD k Correctness.Wrong), c.getD k 0)
          :: ((w.zip mask).zip c).drop (k + 1) := by
      rw [drop_zip_cons (w.zip mask) c (0, Correctness.Wrong) 0 (by omega) (by omega),
        getD_zip w mask 0 Correctness.Wrong (by omega) (by omega)]
    rw [hcons] at hdrop
    have hhead := List.head_eq_of_cons_eq hdrop
    have htl := List.tail_eq_of_cons_eq hdrop
    have hg : g = w.getD k 0 := congrArg (fun x => x.1.1) hhead
    have hm' : m = mask.getD k Correctness.Wrong := congrArg (fun x => x.1.2) hhead
    have hwc : wc = c.getD k 0 := congrArg (fun x => x.2) hhead
    simp only [outerLoop]
    by_cases hki' : k = i
    · have hmaskk : mask.getD k Correctness.Wrong = Correctness.Wrong := by
        rw [hki']
        exact hW
      have hcwk : c.getD k 0 = w.getD k 0 := by
        rw [hki']
        exact hcw
      have hwcw : wc = w.getD k 0 := hwc.trans hcwk
      have hwcwi : wc = w.getD i 0 := by
        rw [hwcw, hki']
      have hmW : m = Correctness.Wrong := hm'.trans hmaskk
      have hu2 : used.getD k false = false := by
        cases hv : used.getD k false
        · rfl
        · exact absurd hmaskk (hinv k hv)
      rw [if_neg (by rw [hmW]; exact fun h => Correctness.noConfusion h)]
      rw [innerLoop_rejects w mask hw hm k wc
        (fun j hj hjw => hnoM j hj (hjw.trans hwcwi)) (w.zip mask) 0 used
        (by rw [List.drop_zero]) ⟨k, Nat.zero_le k, hk5, hwcw.symm, hmaskk, hu2⟩]
    · have hki2 : k < i := by omega
      by_cases hCm : m = Correctness.Correct
      · rw [if_pos hCm]
        by_cases hwg : wc ≠ g
        · rw [if_pos hwg]
        · rw [if_neg hwg]
          apply outerLoop_none_of_wrong w mask c hw hm hc i hi hW hcw hnoM tl (k + 1)
            (used.set k true) htl (by omega) (by rw [List.length_set]; exact hulen)
          intro j hj
          by_cases hjk : j = k
          · subst hjk
            rw [← hm', hCm]
            exact fun h => Correctness.noConfusion h
          · rw [getD_set_ne used (fun h => hjk h.symm)] at hj
            exact hinv j hj
      · rw [if_neg hCm]
        rcases hscan : innerLoop k wc used (w.zip mask) 0 with _ | u'' | _
        · rfl
        · obtain ⟨jm, _, _, _, hset, _, hjmM, _⟩ :=
            innerLoop_consumed_spec w mask hw hm k wc (w.zip mask) 0 used u''
              (by rw [List.drop_zero]) hscan
          apply outerLoop_none_of_wrong w mask c hw hm hc i hi hW hcw hnoM tl (k + 1)
            u'' htl (by omega) (by rw [hset, List.length_set]; exact hulen)
          intro j hj
          by_cases hjjm : j = jm
          · subst hjjm
            rw [hjmM]
            exact fun h => Correctness.noConfusion h
          · rw [hset, getD_set_ne used (fun h => hjjm h.symm)] at hj
            exact hinv j hj
        · exact outerLoop_none_of_wrong w mask c hw hm hc i hi hW hcw hnoM tl (k + 1)
            used htl (by omega) hulen hinv

theorem outerLoop_some_provenance (w : Word) (mask : List Correctness) (c : Word)
    (hw : w.length = 5) (hm : mask.length = 5) :
    ∀ (ts : List ((Nat × Correctness) × Nat)) (k : Nat) (used u' : List Bool),
      ts = ((w.zip mask).zip c).drop k →
      outerLoop (w.zip mask) ts k used = some u' →
      ∀ j, mask.getD j Correctness.Wrong = Correctness.Misplaced →
        u'.getD j false = true →
        used.getD j false = true ∨
          ∃ p, k ≤ p ∧ p < 5 ∧ p ≠ j ∧ c.getD p 0 = w.getD j 0
  | [], k, used, u', hdrop, hsome, j, hjM, hju => by
    simp only [outerLoop] at hsome
    exact Or.inl (by rw [Option.some.inj hsome]; exact hju)
  | ((g, m), wc) :: tl, k, used, u', hdrop, hsome, j, hjM, hju => by
    have hzip5 : (w.zip mask).length = 5 := by rw [List.length_zip]; omega
    have hklt : k < ((w.zip mask).zip c).length := by
      by_contra hcon
      rw [List.drop_eq_nil_of_le (by omega)] at hdrop
      exact List.noConfusion hdrop
    rw [List.length_zip, hzip5] at hklt
    have hk5 : k < 5 := by omega
    have hkc : k < c.length := by omega
    have hcons : ((w.zip mask).zip c).drop k
        = ((w.getD k 0, mask.getD k Correctness.Wrong), c.getD k 0)
          :: ((w.zip mask).zip c).drop (k + 1) := by
      rw [drop_zip_cons (w.zip mask) c (0, Correctness.Wrong) 0 (by omega) hkc,
        getD_zip w mask 0 Correctness.Wrong (by omega) (by omega)]
    rw [hcons] at hdrop
    have hhead := List.head_eq_of_cons_eq hdrop
    have htl := List.tail_eq_of_cons_eq hdrop
    have hg : g = w.getD k 0 := congrArg (fun x => x.1.1) hhead
    have hm' : m = mask.getD k Correctness.Wrong := congrArg (fun x => x.1.2) hhead
    have hwc : wc = c.getD k 0 := congrArg (fun x => x.2) hhead
    simp only [outerLoop] at hsome
    by_cases hCm : m = Correctness.Correct
    · rw [if_pos hCm] at hsome
      by_cases hwg : wc ≠ g
      · rw [if_pos hwg] at hsome
        exact Option.noConfusion hsome
      · rw [if_neg hwg] at hsome
        rcases outerLoop_some_provenance w mask c hw hm tl (k + 1) (used.set k true) u'
            htl hsome j hjM hju with h | ⟨p, h1, h2, h3, h4⟩
        · by_cases hjk : j = k
          · exfalso
            subst hjk
            rw [← hm'] at hjM
            rw [hjM] at hCm
            exact Correctness.noConfusion hCm
          · rw [getD_set_ne used (fun hx => hjk hx.symm)] at h
            exact Or.inl h
        · exact Or.inr ⟨p, by omega, h2, h3, h4⟩
    · rw [if_neg hCm] at hsome
      rcases hscan : innerLoop k wc used (w.zip mask) 0 with _ | u'' | _ <;>
        rw [hscan] at hsome
      · exact Option.noConfusion hsome
      · obtain ⟨jm, _, hjm5, hjmni, hset, hjmw, hjmM, hjmu⟩ :=
          innerLoop_consumed_spec w mask hw hm k wc (w.zip mask) 0 used u''
            (by rw [List.drop_zero]) hscan
        rcases outerLoop_some_provenance w mask c hw hm tl (k + 1) u'' u'
            htl hsome j hjM hju with h | ⟨p, h1, h2, h3, h4⟩
        · by_cases hjjm : j = jm
          · subst hjjm
            refine Or.inr ⟨k, Nat.le_refl k, hk5, fun hx => hjmni hx.symm, ?_⟩
            rw [← hwc, ← hjmw]
          · rw [hset, getD_set_ne used (fun hx => hjjm hx.symm)] at h
            exact Or.inl h
        · exact Or.inr ⟨p, by omega, h2, h3, h4⟩
      · rcases outerLoop_some_provenance w mask c hw hm tl (k + 1) used u'
            htl hsome j hjM hju with h | ⟨p, h1, h2, h3, h4⟩
        · exact Or.inl h
        · exact Or.inr ⟨p, by omega, h2, h3, h4⟩

theorem matches_eq_true_elim (g : Guess) (c : Word) (h : g.matches c = true) :
    ∃ u', outerLoop (g.word.zip g.mask) ((g.word.zip g.mask).zip c) 0
        (List.replicate 5 false) = some u' ∧
      ∀ p ∈ g.mask.zip u', ¬(p.1 = Correctness.Misplaced ∧ p.2 = false) := by
  simp only [Guess.matches] at h
  rcases hres : outerLoop (g.word.zip g.mask) ((g.word.zip g.mask).zip c) 0
      (List.replicate 5 false) with _ | u'
  · rw [hres] at h
    exact Bool.noConfusion h
  · rw [hres] at h
    refine ⟨u', rfl, ?_⟩
    intro p hp hcon
    have := List.all_eq_true.mp h p hp
    rw [if_pos hcon] at this
    exact Bool.noConfusion this

/-- C1: for every 5-letter answer `A` and 5-letter guess word `w`, the guess
`Guess.check A w` still matches `A` itself; consequently a filtering step of
the solve loop never removes the true answer from the candidate set when the
answer is not in the exclusion set. -/
theorem claim_C1 (A w : Word) (ha : A.length = 5) (hw : w.length = 5) :
    (Guess.check A w).matches A = true ∧
    ∀ (excl dict : List Word) (cur : Word), cur.length = 5 →
      A ∈ dict → A ∉ excl → A ∈ filterStep excl (Guess.check A cur) dict := by
  refine ⟨matches_check_self A w ha hw, ?_⟩
  intro excl dict cur hcur hmem hnexcl
  rw [filterStep, List.mem_filter]
  refine ⟨hmem, ?_⟩
  rw [matches_check_self A cur ha hcur]
  simp [hnexcl]

/-- Witness for C1 at a concrete answer, guess word and dictionary. -/
theorem claim_C1_witness :
    (Guess.check [97, 98, 99, 100, 101] salet).matches [97, 98, 99, 100, 101] = true ∧
    [97, 98, 99, 100, 101] ∈ filterStep [] (Guess.check [97, 98, 99, 100, 101] salet)
      [[97, 98, 99, 100, 101]] :=
  ⟨(claim_C1 [97, 98, 99, 100, 101] salet (by decide) (by decide)).1,
   (claim_C1 [97, 98, 99, 100, 101] salet (by decide) (by decide)).2 [] [[97, 98, 99, 100, 101]]
     salet (by decide) (by decide) (by decide)⟩

/-- C2 counterexample: for the guess `check "axbpq" "bbxyz"`, position 1 is
marked `Wrong`, the candidate `"xbqqq"` repeats the guessed letter `b` at that
same position, and yet `matches` accepts the candidate, because the unconsumed
`Misplaced` mark for `b` at position 0 absorbs it. -/
theorem claim_C2_counterexample :
    (Guess.check [97, 120, 98, 112, 113] [98, 98, 120, 121, 122]).mask.getD 1 Correctness.Correct
        = Correctness.Wrong ∧
    List.getD [120, 98, 113, 113, 113] 1 0
        = (Guess.check [97, 120, 98, 112, 113] [98, 98, 120, 121, 122]).word.getD 1 0 ∧
    (Guess.check [97, 120, 98, 112, 113] [98, 98, 120, 121, 122]).matches
        [120, 98, 113, 113, 113] = true := by decide

/-- C2 amended: a `Wrong` mark at position `i` with `candidate[i] =
guess.word[i]` forces `matches` to reject the candidate, provided no other
position of the guess word carries the same letter with a `Misplaced` mark
(otherwise that mark can be consumed instead and the candidate may survive). -/
theorem claim_C2_amended (g : Guess) (c : Word) (i : Nat)
    (hw : g.word.length = 5) (hm : g.mask.length = 5) (hc : c.length = 5) (hi : i < 5)
    (hW : g.mask.getD i Correctness.Wrong = Correctness.Wrong)
    (hcw : c.getD i 0 = g.word.getD i 0)
    (hnoM : ∀ j, j < 5 → g.word.getD j 0 = g.word.getD i 0 →
      g.mask.getD j Correctness.Wrong ≠ Correctness.Misplaced) :
    g.matches c = false := by
  have hnone := outerLoop_none_of_wrong g.word g.mask c hw hm hc i hi hW hcw hnoM
    ((g.word.zip g.mask).zip c) 0 (List.replicate 5 false) (by rw [List.drop_zero])
    (by omega) (by simp)
    (fun j hj => by rw [getD_replicate_any] at hj; exact Bool.noConfusion hj)
  simp only [Guess.matches, hnone]

/-- Witness for the amended C2 at a concrete guess and candidate. -/
theorem claim_C2_witness :
    (Guess.check [102, 103, 104, 105, 106] [97, 98, 99, 100, 101]).matches
      [97, 122, 122, 122, 122] = false :=
  claim_C2_amended (Guess.check [102, 103, 104, 105, 106] [97, 98, 99, 100, 101])
    [97, 122, 122, 122, 122] 0 (by decide) (by decide) (by decide) (by decide)
    (by decide) (by decide) (by decide)

/-- C3 counterexample: for the guess `check "bpqrs" "abcde"`, position 1 is
marked `Misplaced`, and the candidate `"bbzzz"` carries the guessed letter `b`
at that very position, yet `matches` accepts it: the candidate letter at
position 0 consumed the `Misplaced` mark first. -/
theorem claim_C3_counterexample :
    (Guess.check [98, 112, 113, 114, 115] [97, 98, 99, 100, 101]).mask.getD 1 Correctness.Wrong
        = Correctness.Misplaced ∧
    List.getD [98, 98, 122, 122, 122] 1 0
        = (Guess.check [98, 112, 113, 114, 115] [97, 98, 99, 100, 101]).word.getD 1 0 ∧
    (Guess.check [98, 112, 113, 114, 115] [97, 98, 99, 100, 101]).matches
        [98, 98, 122, 122, 122] = true := by decide

/-- C3 amended: when position `i` of the mask is `Misplaced` and `matches`
accepts the candidate, the candidate holds the guessed letter at some other
position `p ≠ i` (the position that consumed the mark); but the candidate may
also equal the guessed letter at position `i` itself. -/
theorem claim_C3_amended (g : Guess) (c : Word) (i : Nat)
    (hw : g.word.length = 5) (hm : g.mask.length = 5) (hi : i < 5)
    (hM : g.mask.getD i Correctness.Wrong = Correctness.Misplaced)
    (hmatch : g.matches c = true) :
    ∃ p, p < 5 ∧ p ≠ i ∧ c.getD p 0 = g.word.getD i 0 := by
  obtain ⟨u', hsome, hall⟩ := matches_eq_true_elim g c hmatch
  have hulen : u'.length = 5 := by
    have := outerLoop_some_length (g.word.zip g.mask) _ 0 (List.replicate 5 false) u' hsome
    simpa using this
  have hizip : i < (g.mask.zip u').length := by rw [List.length_zip]; omega
  have hui : u'.getD i false = true := by
    have hmem := List.getElem_mem hizip
    have hthis := hall _ hmem
    rw [List.getElem_zip] at hthis
    have h1 : g.mask[i] = Correctness.Misplaced := by
      rw [← List.getD_eq_getElem g.mask Correctness.Wrong (by omega)]
      exact hM
    cases hb : u'[i] with
    | false => exact absurd ⟨h1, hb⟩ hthis
    | true =>
      rw [List.getD_eq_getElem u' false (by omega), hb]
  have hprov := outerLoop_some_provenance g.word g.mask c hw hm
    ((g.word.zip g.mask).zip c) 0 (List.replicate 5 false) u' (by rw [List.drop_zero])
    hsome i hM hui
  rcases hprov with h | ⟨p, _, h2, h3, h4⟩
  · rw [getD_replicate_any] at h
    exact Bool.noConfusion h
  · exact ⟨p, h2, h3, h4⟩

/-- Witness for the amended C3 at a concrete guess and candidate. -/
theorem claim_C3_witness :
    ∃ p, p < 5 ∧ p ≠ 1 ∧ List.getD [98, 98, 122, 122, 122] p 0
      = (Guess.check [98, 112, 113, 114, 115] [97, 98, 99, 100, 101]).word.getD 1 0 :=
  claim_C3_amended (Guess.check [98, 112, 113, 114, 115] [97, 98, 99, 100, 101])
    [98, 98, 122, 122, 122] 1 (by decide) (by decide) (by decide) (by decide) (by decide)

/-- C4: after the per-position scan, any `Misplaced` mark left unconsumed makes
`matches` return false; concretely, the guess `"tares"` against answer
`"islet"` (with `s` marked `Misplaced`) rejects `"given"`, `"model"` and
`"chief"`, none of which carries an `s` elsewhere, and accepts `"islet"`. -/
theorem claim_C4 :
    (∀ (g : Guess) (c : Word) (used : List Bool) (j : Nat),
      g.mask.length = 5 →
      outerLoop (g.word.zip g.mask) ((g.word.zip g.mask).zip c) 0
          (List.replicate 5 false) = some used →
      j < 5 → g.mask.getD j Correctness.Wrong = Correctness.Misplaced →
      used.getD j false = false → g.matches c = false) ∧
    (Guess.check isletW taresW).matches givenW = false ∧
    (Guess.check isletW taresW).matches modelW = false ∧
    (Guess.check isletW taresW).matches chiefW = false ∧
    (Guess.check isletW taresW).matches isletW = true := by
  refine ⟨?_, by decide, by decide, by decide, by decide⟩
  intro g c used j hm hsome hj hjM hju
  have hulen : used.length = 5 := by
    have := outerLoop_some_length (g.word.zip g.mask) _ 0 (List.replicate 5 false) used hsome
    simpa using this
  have hjz : j < (g.mask.zip used).length := by rw [List.length_zip]; omega
  simp only [Guess.matches, hsome]
  apply Bool.eq_false_iff.mpr
  intro hall
  have hmem := List.getElem_mem hjz
  have hthis := List.all_eq_true.mp hall _ hmem
  rw [List.getElem_zip] at hthis
  have h1 : g.mask[j] = Correctness.Misplaced := by
    rw [← List.getD_eq_getElem g.mask Correctness.Wrong (by omega)]
    exact hjM
  have h2 : used[j] = false := by
    rw [← List.getD_eq_getElem used false (by omega)]
    exact hju
  rw [if_pos ⟨h1, h2⟩] at hthis
  exact Bool.noConfusion hthis

/-- Witness for the general part of C4 at a concrete run of the outer loop. -/
theorem claim_C4_witness :
    (Guess.check isletW taresW).matches givenW = false := by
  have heval : outerLoop (taresW.zip (Guess.check isletW taresW).mask)
      ((taresW.zip (Guess.check isletW taresW).mask).zip givenW) 0
      (List.replicate 5 false) = some [false, false, false, true, false] := by decide
  exact claim_C4.1 (Guess.check isletW taresW) givenW
    [false, false, false, true, false] 0 (by decide) heval (by decide) (by decide) (by decide)

/-- C5: for every 5-letter answer and guess word and every letter value `L`,
the number of non-`Wrong` marks on occurrences of `L` in the guess never
exceeds the count of `L` in the answer, and the occurrences of `L` beyond
`min (count in guess) (count in answer)` are exactly the ones marked `Wrong`. -/
theorem claim_C5 (A w : Word) (ha : A.length = 5) (hw : w.length = 5) (L : Nat) :
    (List.range 5).countP (fun i => decide (w.getD i 0 = L ∧
        ¬ (Correctness.compute A w).getD i Correctness.Wrong = Correctness.Wrong))
      ≤ A.count L ∧
    (List.range 5).countP (fun i => decide (w.getD i 0 = L ∧
        (Correctness.compute A w).getD i Correctness.Wrong = Correctness.Wrong))
      = w.count L - min (w.count L) (A.count L) := by
  have hsplit1 : (List.range 5).countP (fun i => decide (w.getD i 0 = L ∧
        ¬ (Correctness.compute A w).getD i Correctness.Wrong = Correctness.Wrong))
      = (List.range 5).countP (fun i => decide (w.getD i 0 = L ∧
          (Correctness.compute A w).getD i Correctness.Wrong = Correctness.Correct))
        + (List.range 5).countP (fun i => decide (w.getD i 0 = L ∧
            (Correctness.compute A w).getD i Correctness.Wrong = Correctness.Misplaced)) := by
    rw [countP_split (List.range 5) _
      (fun i => decide ((Correctness.compute A w).getD i Correctness.Wrong
        = Correctness.Correct))]
    congr 1
    · apply List.countP_congr
      intro x _
      rcases hx : (Correctness.compute A w).getD x Correctness.Wrong <;>
        by_cases hwx : w.getD x 0 = L <;> simp [hx, hwx]
    · apply List.countP_congr
      intro x _
      rcases hx : (Correctness.compute A w).getD x Correctness.Wrong <;>
        by_cases hwx : w.getD x 0 = L <;> simp [hx, hwx]
  have hsplit2 : (List.range 5).countP (fun i => decide (w.getD i 0 = L))
      = (List.range 5).countP (fun i => decide (w.getD i 0 = L ∧
          ¬ (Correctness.compute A w).getD i Correctness.Wrong = Correctness.Wrong))
        + (List.range 5).countP (fun i => decide (w.getD i 0 = L ∧
            (Correctness.compute A w).getD i Correctness.Wrong = Correctness.Wrong)) := by
    rw [countP_split (List.range 5) _
      (fun i => decide (¬ (Correctness.compute A w).getD i Correctness.Wrong
        = Correctness.Wrong))]
    congr 1
    · apply List.countP_congr
      intro x _
      rcases hx : (Correctness.compute A w).getD x Correctness.Wrong <;>
        by_cases hwx : w.getD x 0 = L <;> simp [hx, hwx]
    · apply List.countP_congr
      intro x _
      rcases hx : (Correctness.compute A w).getD x Correctness.Wrong <;>
        by_cases hwx : w.getD x 0 = L <;> simp [hx, hwx]
  have hsplit5 : (List.range 5).countP (fun j => decide (w.getD j 0 = L ∧
        ¬ (Correctness.compute A w).getD j Correctness.Wrong = Correctness.Correct))
      = (List.range 5).countP (fun i => decide (w.getD i 0 = L ∧
          (Correctness.compute A w).getD i Correctness.Wrong = Correctness.Misplaced))
        + (List.range 5).countP (fun i => decide (w.getD i 0 = L ∧
            (Correctness.compute A w).getD i Correctness.Wrong = Correctness.Wrong)) := by
    rw [countP_split (List.range 5) _
      (fun i => decide ((Correctness.compute A w).getD i Correctness.Wrong
        = Correctness.Misplaced))]
    congr 1
    · apply List.countP_congr
      intro x _
      rcases hx : (Correctness.compute A w).getD x Correctness.Wrong <;>
        by_cases hwx : w.getD x 0 = L <;> simp [hx, hwx]
    · apply List.countP_congr
      intro x _
      rcases hx : (Correctness.compute A w).getD x Correctness.Wrong <;>
        by_cases hwx : w.getD x 0 = L <;> simp [hx, hwx]
  have hwcount : w.count L = (List.range 5).countP (fun i => decide (w.getD i 0 = L)) := by
    rw [List.count_eq_countP, countP_eq_countP_range w _ 0, hw]
    apply List.countP_congr
    intro x _
    simp
  have hacount : A.count L = (List.range 5).countP (fun p => decide (A.getD p 0 = L ∧
        (Correctness.compute A w).getD p Correctness.Wrong = Correctness.Correct))
      + (List.range 5).countP (fun p => decide (A.getD p 0 = L ∧
          ¬ (Correctness.compute A w).getD p Correctness.Wrong = Correctness.Correct)) := by
    rw [List.count_eq_countP, countP_eq_countP_range A _ 0, ha,
      countP_split (List.range 5) (fun p => (A.getD p 0 == L))
        (fun p => decide ((Correctness.compute A w).getD p Correctness.Wrong
          = Correctness.Correct))]
    congr 1
    · apply List.countP_congr
      intro x _
      by_cases hcx : (Correctness.compute A w).getD x Correctness.Wrong = Correctness.Correct <;>
        by_cases hax : A.getD x 0 = L <;> simp [hcx, hax]
    · apply List.countP_congr
      intro x _
      by_cases hcx : (Correctness.compute A w).getD x Correctness.Wrong = Correctness.Correct <;>
        by_cases hax : A.getD x 0 = L <;> simp [hcx, hax]
  have hccA : (List.range 5).countP (fun p => decide (A.getD p 0 = L ∧
        (Correctness.compute A w).getD p Correctness.Wrong = Correctness.Correct))
      = (List.range 5).countP (fun i => decide (w.getD i 0 = L ∧
          (Correctness.compute A w).getD i Correctness.Wrong = Correctness.Correct)) := by
    apply List.countP_congr
    intro x hx
    rw [List.mem_range] at hx
    by_cases hcx : (Correctness.compute A w).getD x Correctness.Wrong = Correctness.Correct
    · have hax := (compute_correct_iff A w ha hw hx).mp hcx
      rw [hax]
    · rw [decide_eq_false (fun hcon => hcx hcon.2),
        decide_eq_false (fun hcon => hcx hcon.2)]
  have h4 := compute_misplaced_count_eq A w ha hw L
  have h6 := compute_answer_count A w ha hw L
  rw [← h6] at h4
  refine ⟨by omega, by omega⟩

/-- Witness for C5 at answer "islet", guess "tares", letter 's'. -/
theorem claim_C5_witness :
    (List.range 5).countP (fun i => decide (taresW.getD i 0 = 115 ∧
        ¬ (Correctness.compute isletW taresW).getD i Correctness.Wrong = Correctness.Wrong))
      ≤ isletW.count 115 ∧
    (List.range 5).countP (fun i => decide (taresW.getD i 0 = 115 ∧
        (Correctness.compute isletW taresW).getD i Correctness.Wrong = Correctness.Wrong))
      = taresW.count 115 - min (taresW.count 115) (isletW.count 115) :=
  claim_C5 isletW taresW (by decide) (by decide) 115

/-- Setting an unwritten in-bounds slot increases the written count by one. -/
theorem writtenCount_set : ∀ (h : List (Option Guess)) (i : Nat) (g : Guess),
    i < h.length → h.getD i none = none →
    writtenCount (h.set i (some g)) = writtenCount h + 1 := by
  intro h
  induction h with
  | nil => intro i g hi _; simp at hi
  | cons a t ih =>
    intro i g hi hnone
    cases i with
    | zero =>
      have ha : a = none := by simpa using hnone
      subst ha
      simp [writtenCount, List.countP_cons]
    | succ i' =>
      rw [List.length_cons] at hi
      have ht := ih i' g (by omega) (by simpa using hnone)
      simp only [writtenCount, List.set_cons_succ, List.countP_cons] at ht ⊢
      omega

/-- All slots of a history are written exactly when the written count reaches
the length. -/
theorem writtenCount_eq_length_iff : ∀ (h : List (Option Guess)),
    writtenCount h = h.length ↔ h.all (fun o => o.isSome) = true := by
  intro h
  induction h with
  | nil => simp [writtenCount]
  | cons a t ih =>
    have hle : t.countP (fun o : Option Guess => o.isSome) ≤ t.length :=
      List.countP_le_length _
    cases a with
    | none =>
      have h1 : writtenCount (none :: t) = writtenCount t := by
        simp [writtenCount, List.countP_cons]
      have h2 : (none :: t).all (fun o => o.isSome) = false := by simp
      have hle2 : writtenCount t ≤ t.length := List.countP_le_length _
      rw [h1, h2, List.length_cons]
      constructor
      · intro hcon; exact absurd hcon (by omega)
      · intro hcon; exact absurd hcon (by simp)
    | some g =>
      have h1 : writtenCount (some g :: t) = writtenCount t + 1 := by
        simp [writtenCount, List.countP_cons]
      have h2 : (some g :: t).all (fun o => o.isSome) = t.all (fun o => o.isSome) := by
        simp
      rw [h1, h2, List.length_cons, ← ih]
      omega

/-- `guessed_words` succeeds exactly when every history slot is written. -/
theorem guessedWords_isSome : ∀ (h : List (Option Guess)),
    (Guesser.guessedWords h).isSome = h.all fun o => o.isSome := by
  intro h
  induction h with
  | nil => rfl
  | cons a t ih =>
    cases a with
    | none => simp [Guesser.guessedWords]
    | some g =>
      simp only [Guesser.guessedWords, List.all_cons, Option.isSome_some, Bool.true_and]
      rw [← ih]
      cases hgw : Guesser.guessedWords t <;> rfl

/-- Unfolding of one round of `solveLoop` when the guess is correct: the loop
returns `i + 1` without touching the history. -/
theorem solveLoop_correct_step (answer : Word) (excl : List Word) (fuel i : Nat)
    (current : Word) (dict : List Word) (history : List (Option Guess))
    (hc : (Guess.check answer current).isCorrect = true) :
    solveLoop answer excl (fuel + 1) i current dict history = (some (i + 1), history) := by
  simp [solveLoop, hc]

/-- Unfolding of one round of `solveLoop` when the guess is not correct and the
filtered candidate set is empty: the loop records the guess and stops. -/
theorem solveLoop_exhaust_step (answer : Word) (excl : List Word) (fuel i : Nat)
    (current : Word) (dict : List Word) (history : List (Option Guess))
    (hc : ¬ (Guess.check answer current).isCorrect = true)
    (hde : filterStep excl (Guess.check answer current) dict = []) :
    solveLoop answer excl (fuel + 1) i current dict history
      = (none, history.set i (some (Guess.check answer current))) := by
  simp [solveLoop, hc, hde]

/-- Unfolding of one round of `solveLoop` when the guess is not correct and the
filtered candidate set is nonempty: the loop records the guess and continues
with the head of the filtered set as the next word. -/
theorem solveLoop_next_step (answer : Word) (excl : List Word) (fuel i : Nat)
    (current : Word) (dict : List Word) (history : List (Option Guess))
    (hc : ¬ (Guess.check answer current).isCorrect = true)
    (hde : filterStep excl (Guess.check answer current) dict ≠ []) :
    solveLoop answer excl (fuel + 1) i current dict history
      = solveLoop answer excl fuel (i + 1)
          ((filterStep excl (Guess.check answer current) dict).headD [])
          (filterStep excl (Guess.check answer current) dict)
          (history.set i (some (Guess.check answer current))) := by
  simp [solveLoop, hc, hde]

/-- Slots below the current round index are never rewritten by the loop. -/
theorem solveLoop_preserves (answer : Word) (excl : List Word) :
    ∀ (fuel i : Nat) (current : Word) (dict : List Word)
      (history : List (Option Guess)) (k : Nat), k < i →
      (solveLoop answer excl fuel i current dict history).2.getD k none
        = history.getD k none := by
  intro fuel
  induction fuel with
  | zero => intro i current dict history k _; rfl
  | succ fuel ih =>
    intro i current dict history k hk
    by_cases hc : (Guess.check answer current).isCorrect = true
    · rw [solveLoop_correct_step answer excl fuel i current dict history hc]
    · by_cases hde : filterStep excl (Guess.check answer current) dict = []
      · rw [solveLoop_exhaust_step answer excl fuel i current dict history hc hde]
        exact getD_set_ne history (by omega) _ none
      · rw [solveLoop_next_step answer excl fuel i current dict history hc hde,
          ih (i + 1) _ _ _ k (by omega)]
        exact getD_set_ne history (by omega) _ none

/-- Invariants of the solve loop: the history keeps its six slots, at most six
slots are ever written, and a `some r` result leaves exactly `r - 1` written
slots with `i < r ≤ 6`. -/
theorem solveLoop_inv (answer : Word) (excl : List Word) :
    ∀ (fuel i : Nat) (current : Word) (dict : List Word)
      (history : List (Option Guess)),
      history.length = 6 → i + fuel ≤ 6 → writtenCount history = i →
      (∀ k, i ≤ k → k < 6 → history.getD k none = none) →
      (solveLoop answer excl fuel i current dict history).2.length = 6 ∧
      writtenCount (solveLoop answer excl fuel i current dict history).2 ≤ 6 ∧
      (∀ r, (solveLoop answer excl fuel i current dict history).1 = some r →
        writtenCount (solveLoop answer excl fuel i current dict history).2 = r - 1 ∧
        i < r ∧ r ≤ 6) := by
  intro fuel
  induction fuel with
  | zero =>
    intro i current dict history hlen hif hwc _
    refine ⟨hlen, ?_, fun r hr => absurd hr (by simp [solveLoop])⟩
    show writtenCount history ≤ 6
    omega
  | succ fuel ih =>
    intro i current dict history hlen hif hwc hnone
    by_cases hc : (Guess.check answer current).isCorrect = true
    · rw [solveLoop_correct_step answer excl fuel i current dict history hc]
      refine ⟨hlen, ?_, ?_⟩
      · show writtenCount history ≤ 6
        omega
      · intro r hr
        have hr' : i + 1 = r := by simpa using hr
        refine ⟨?_, by omega, by omega⟩
        show writtenCount history = r - 1
        omega
    · have hi6 : i < 6 := by omega
      have hilen : i < history.length := by omega
      have hslot : history.getD i none = none := hnone i le_rfl hi6
      have hwc' : writtenCount (history.set i (some (Guess.check answer current)))
          = i + 1 := by
        rw [writtenCount_set history i (Guess.check answer current) hilen hslot, hwc]
      have hlen' : (history.set i (some (Guess.check answer current))).length = 6 := by
        rw [List.length_set]; exact hlen
      have hnone' : ∀ k, i + 1 ≤ k → k < 6 →
          (history.set i (some (Guess.check answer current))).getD k none = none := by
        intro k hk1 hk2
        rw [getD_set_ne history (by omega) (some (Guess.check answer current)) none]
        exact hnone k (by omega) hk2
      by_cases hde : filterStep excl (Guess.check answer current) dict = []
      · rw [solveLoop_exhaust_step answer excl fuel i current dict history hc hde]
        refine ⟨hlen', ?_, fun r hr => absurd hr (by simp)⟩
        show writtenCount (history.set i (some (Guess.check answer current))) ≤ 6
        omega
      · rw [solveLoop_next_step answer excl fuel i current dict history hc hde]
        obtain ⟨H1, H2, H3⟩ := ih (i + 1)
          ((filterStep excl (Guess.check answer current) dict).headD [])
          (filterStep excl (Guess.check answer current) dict)
          (history.set i (some (Guess.check answer current)))
          hlen' (by omega) hwc' hnone'
        refine ⟨H1, H2, ?_⟩
        intro r hr
        obtain ⟨K1, K2, K3⟩ := H3 r hr
        exact ⟨K1, by omega, K3⟩

/-- C6: a solved run returns only the bare round count `some (i + 1)` — the
outcome carries no solved-word component at all (here a two-round solve of
answer "tares" yields `some 2`), and the winning guess is also absent from
the history, so the solved word is not recoverable from the result. -/
theorem claim_C6 :
    Guesser.solve taresW [taresW] []
      = (some 2, (List.replicate 6 none).set 0 (some (Guess.check taresW salet))) := by
  decide

/-- C7 counterexample: a run solved in the very first round terminates with a
completely empty history — the winning guess is never appended. -/
theorem claim_C7_counterexample :
    (Guesser.solve salet [salet] []).1 = some 1 ∧
    writtenCount (Guesser.solve salet [salet] []).2 = 0 := by
  decide

/-- C7 amended: the history never holds more than 6 records, but a run solved
in round `r` records only the `r - 1` non-winning guesses — the winning
guess of round `r` is returned before its history slot is written. -/
theorem claim_C7_amended (answer : Word) (dict excl : List Word) :
    writtenCount (Guesser.solve answer dict excl).2 ≤ 6 ∧
    ∀ r, (Guesser.solve answer dict excl).1 = some r →
      writtenCount (Guesser.solve answer dict excl).2 = r - 1 ∧ 1 ≤ r ∧ r ≤ 6 := by
  have hinv : (Guesser.solve answer dict excl).2.length = 6 ∧
      writtenCount (Guesser.solve answer dict excl).2 ≤ 6 ∧
      (∀ r, (Guesser.solve answer dict excl).1 = some r →
        writtenCount (Guesser.solve answer dict excl).2 = r - 1 ∧ 0 < r ∧ r ≤ 6) :=
    solveLoop_inv answer excl 6 0 salet dict (List.replicate 6 none)
      (by simp) (by omega) (by rfl) (fun k _ _ => getD_replicate_any none)
  exact ⟨hinv.2.1, fun r hr =>
    ⟨(hinv.2.2 r hr).1, (hinv.2.2 r hr).2.1, (hinv.2.2 r hr).2.2⟩⟩

/-- Witness for C7 at a run solved in round 2: exactly one slot is written. -/
theorem claim_C7_witness :
    writtenCount (Guesser.solve taresW [taresW] []).2 ≤ 6 ∧
    writtenCount (Guesser.solve taresW [taresW] []).2 = 2 - 1 ∧ 1 ≤ 2 ∧ 2 ≤ 6 :=
  ⟨(claim_C7_amended taresW [taresW] []).1,
   (claim_C7_amended taresW [taresW] []).2 2 (by decide)⟩

/-- C8: round 1 always guesses the fixed opener "salet" whatever the
dictionary is (slot 0, when written, holds exactly that guess), every
filtering step preserves the order of the surviving candidates, and each
later round takes the first entry of the filtered candidate set as its
guess word. -/
theorem claim_C8 (answer : Word) (excl : List Word) :
    (∀ dict : List Word,
      (Guesser.solve answer dict excl).2.getD 0 none = none ∨
      (Guesser.solve answer dict excl).2.getD 0 none
        = some (Guess.check answer salet)) ∧
    (∀ (g : Guess) (d : List Word), List.Sublist (filterStep excl g d) d) ∧
    (∀ (fuel i : Nat) (current : Word) (d : List Word) (h : List (Option Guess)),
      ¬ (Guess.check answer current).isCorrect = true →
      filterStep excl (Guess.check answer current) d ≠ [] →
      solveLoop answer excl (fuel + 1) i current d h
        = solveLoop answer excl fuel (i + 1)
            ((filterStep excl (Guess.check answer current) d).headD [])
            (filterStep excl (Guess.check answer current) d)
            (h.set i (some (Guess.check answer current)))) := by
  refine ⟨?_, ?_, ?_⟩
  · intro dict
    simp only [Guesser.solve]
    by_cases hc : (Guess.check answer salet).isCorrect = true
    · left
      have hres : solveLoop answer excl 6 0 salet dict (List.replicate 6 none)
          = (some 1, List.replicate 6 none) :=
        solveLoop_correct_step answer excl 5 0 salet dict (List.replicate 6 none) hc
      rw [hres]
      exact getD_replicate_any none
    · right
      by_cases hde : filterStep excl (Guess.check answer salet) dict = []
      · have hres : solveLoop answer excl 6 0 salet dict (List.replicate 6 none)
            = (none, (List.replicate 6 none).set 0 (some (Guess.check answer salet))) :=
          solveLoop_exhaust_step answer excl 5 0 salet dict (List.replicate 6 none) hc hde
        rw [hres]
        exact getD_set_self (List.replicate 6 none) (some (Guess.check answer salet))
          none (by simp)
      · have hres : solveLoop answer excl 6 0 salet dict (List.replicate 6 none)
            = solveLoop answer excl 5 1
                ((filterStep excl (Guess.check answer salet) dict).headD [])
                (filterStep excl (Guess.check answer salet) dict)
                ((List.replicate 6 none).set 0 (some (Guess.check answer salet))) :=
          solveLoop_next_step answer excl 5 0 salet dict (List.replicate 6 none) hc hde
        rw [hres, solveLoop_preserves answer excl 5 1 _ _ _ 0 (by omega)]
        exact getD_set_self (List.replicate 6 none) (some (Guess.check answer salet))
          none (by simp)
  · intro g d
    exact List.filter_sublist d
  · intro fuel i current d h hc hde
    exact solveLoop_next_step answer excl fuel i current d h hc hde

/-- Witness for C8: one concrete non-winning round of a solve of "islet"
steps to the head of the filtered candidate set. -/
theorem claim_C8_witness :
    ¬ (Guess.check isletW salet).isCorrect = true ∧
    filterStep [] (Guess.check isletW salet) [isletW] ≠ [] ∧
    solveLoop isletW [] 1 0 salet [isletW] (List.replicate 6 none)
      = solveLoop isletW [] 0 1
          ((filterStep [] (Guess.check isletW salet) [isletW]).headD [])
          (filterStep [] (Guess.check isletW salet) [isletW])
          ((List.replicate 6 none).set 0 (some (Guess.check isletW salet))) :=
  ⟨by decide, by decide,
   (claim_C8 isletW []).2.2 0 0 salet [isletW] (List.replicate 6 none)
     (by decide) (by decide)⟩

/-- C9: `guessed_words` succeeds exactly on a run that returned `none` with
all six history slots written (six full non-winning rounds); on every solved
run the unwrap hits an unwritten slot, modelled as `none` (the Rust panic). -/
theorem claim_C9 (answer : Word) (dict excl : List Word) :
    ((Guesser.guessedWords (Guesser.solve answer dict excl).2).isSome = true ↔
      (Guesser.solve answer dict excl).1 = none ∧
        writtenCount (Guesser.solve answer dict excl).2 = 6) ∧
    (∀ r, (Guesser.solve answer dict excl).1 = some r →
      Guesser.guessedWords (Guesser.solve answer dict excl).2 = none) := by
  have hinv : (Guesser.solve answer dict excl).2.length = 6 ∧
      writtenCount (Guesser.solve answer dict excl).2 ≤ 6 ∧
      (∀ r, (Guesser.solve answer dict excl).1 = some r →
        writtenCount (Guesser.solve answer dict excl).2 = r - 1 ∧ 0 < r ∧ r ≤ 6) :=
    solveLoop_inv answer excl 6 0 salet dict (List.replicate 6 none)
      (by simp) (by omega) (by rfl) (fun k _ _ => getD_replicate_any none)
  obtain ⟨hlen, _, hsome⟩ := hinv
  constructor
  · constructor
    · intro hgw
      rw [guessedWords_isSome] at hgw
      have hcount := (writtenCount_eq_length_iff (Guesser.solve answer dict excl).2).mpr hgw
      rw [hlen] at hcount
      refine ⟨?_, hcount⟩
      cases hres : (Guesser.solve answer dict excl).1 with
      | none => rfl
      | some r =>
        obtain ⟨K1, K2, K3⟩ := hsome r hres
        exact absurd hcount (by omega)
    · rintro ⟨_, hcount⟩
      rw [guessedWords_isSome]
      exact (writtenCount_eq_length_iff _).mp (by rw [hlen]; exact hcount)
  · intro r hres
    obtain ⟨K1, K2, K3⟩ := hsome r hres
    cases hgw : Guesser.guessedWords (Guesser.solve answer dict excl).2 with
    | none => rfl
    | some ws =>
      exfalso
      have hs : (Guesser.guessedWords (Guesser.solve answer dict excl).2).isSome = true := by
        rw [hgw]; rfl
      rw [guessedWords_isSome] at hs
      have hcount := (writtenCount_eq_length_iff _).mpr hs
      rw [hlen] at hcount
      omega

/-- Witness for C9 at a run solved in round 1: `guessed_words` panics. -/
theorem claim_C9_witness :
    Guesser.guessedWords (Guesser.solve salet [salet] []).2 = none :=
  (claim_C9 salet [salet] []).2 1 (by decide)

/-- The checked first pass agrees with the unchecked one while every index
it writes stays below 5. -/
theorem pass1C_eq : ∀ (ps : List (Nat × Nat)) (i : Nat) (c : List Correctness)
    (u : List Bool), i + ps.length ≤ 5 → pass1C ps i c u = some (pass1 ps i c u) := by
  intro ps
  induction ps with
  | nil => intro i c u _; rfl
  | cons p rest ih =>
    intro i c u hle
    obtain ⟨a, g⟩ := p
    rw [List.length_cons] at hle
    by_cases hag : a = g
    · have hi : i < 5 := by omega
      simp only [pass1C, pass1, if_pos hag, if_pos hi]
      exact ih (i + 1) _ _ (by omega)
    · simp only [pass1C, pass1, if_neg hag]
      exact ih (i + 1) c u (by omega)

/-- The checked unused-position scan agrees with the unchecked one while every
index it reads stays below 5. -/
theorem findUnusedC_eq (g : Nat) : ∀ (as : List Nat) (j : Nat) (u : List Bool),
    j + as.length ≤ 5 → findUnusedC g as j u = some (findUnused g as j u) := by
  intro as
  induction as with
  | nil => intro j u _; rfl
  | cons a rest ih =>
    intro j u hle
    rw [List.length_cons] at hle
    by_cases hag : a = g
    · have hj : j < 5 := by omega
      by_cases hu : u.getD j false = true
      · have hcond : ¬ (a = g ∧ u.getD j false = false) := by
          intro hcon
          rw [hu] at hcon
          exact absurd hcon.2 (by decide)
        simp only [findUnusedC, findUnused, if_pos hag, if_pos hj, if_pos hu, if_neg hcond]
        exact ih (j + 1) u (by omega)
      · have hu' : u.getD j false = false := by
          cases h : u.getD j false
          · rfl
          · exact absurd h hu
        have hcond : a = g ∧ u.getD j false = false := ⟨hag, hu'⟩
        simp only [findUnusedC, findUnused, if_pos hag, if_pos hj, if_neg hu, if_pos hcond]
    · have hcond : ¬ (a = g ∧ u.getD j false = false) := fun hcon => hag hcon.1
      simp only [findUnusedC, findUnused, if_neg hag, if_neg hcond]
      exact ih (j + 1) u (by omega)

/-- The checked second pass agrees with the unchecked one when the answer has
at most 5 letters and every word index processed stays below 5. -/
theorem pass2C_eq (answer : List Nat) (hans : answer.length ≤ 5) :
    ∀ (gs : List Nat) (i : Nat) (c : List Correctness) (u : List Bool),
      i + gs.length ≤ 5 → pass2C gs i answer c u = some (pass2 gs i answer c u) := by
  intro gs
  induction gs with
  | nil => intro i c u _; rfl
  | cons g rest ih =>
    intro i c u hle
    rw [List.length_cons] at hle
    have hi : i < 5 := by omega
    by_cases hci : c.getD i Correctness.Wrong = Correctness.Correct
    · simp only [pass2C, pass2, if_pos hi, if_pos hci]
      exact ih (i + 1) c u (by omega)
    · simp only [pass2C, pass2, if_pos hi, if_neg hci]
      rw [findUnusedC_eq g answer 0 u (by omega)]
      cases hfu : findUnused g answer 0 u with
      | none => exact ih (i + 1) c u (by omega)
      | some j => exact ih (i + 1) _ _ (by omega)

/-- For inputs of at most 5 letters, the checked `compute` never panics and
agrees with the unchecked embedding. -/
theorem computeChecked_eq (answer word : Word) (ha : answer.length ≤ 5)
    (hw : word.length ≤ 5) :
    Correctness.computeChecked answer word = some (Correctness.compute answer word) := by
  have h1 := pass1C_eq (answer.zip word) 0 (List.replicate 5 Correctness.Wrong)
    (List.replicate 5 false) (by rw [List.length_zip]; omega)
  have h2 := pass2C_eq answer ha word 0
    (pass1 (answer.zip word) 0 (List.replicate 5 Correctness.Wrong)
      (List.replicate 5 false)).1
    (pass1 (answer.zip word) 0 (List.replicate 5 Correctness.Wrong)
      (List.replicate 5 false)).2 (by omega)
  simp only [Correctness.computeChecked, Correctness.compute, h1, h2]

/-- The checked inner scan of `matches` agrees with the unchecked one while
every index it reads stays below 5. -/
theorem innerLoopC_eq (i w : Nat) (u : List Bool) :
    ∀ (ts : List (Nat × Correctness)) (j : Nat), j + ts.length ≤ 5 →
      innerLoopC i w u ts j = some (innerLoop i w u ts j) := by
  intro ts
  induction ts with
  | nil => intro j _; rfl
  | cons t rest ih =>
    intro j hle
    obtain ⟨g, m⟩ := t
    rw [List.length_cons] at hle
    have hj : j < 5 := by omega
    by_cases hgw : g ≠ w
    · have hcond : g ≠ w ∨ u.getD j false = true := Or.inl hgw
      simp only [innerLoopC, innerLoop, if_pos hgw, if_pos hcond]
      exact ih (j + 1) (by omega)
    · by_cases hu : u.getD j false = true
      · have hcond : g ≠ w ∨ u.getD j false = true := Or.inr hu
        simp only [innerLoopC, innerLoop, if_neg hgw, if_pos hj, if_pos hu, if_pos hcond]
        exact ih (j + 1) (by omega)
      · have hcond : ¬ (g ≠ w ∨ u.getD j false = true) := by
          intro hcon
          rcases hcon with hx | hx
          · exact hgw hx
          · exact hu hx
        simp only [innerLoopC, innerLoop, if_neg hgw, if_pos hj, if_neg hu, if_neg hcond]
        cases m with
        | Correct => exact ih (j + 1) (by omega)
        | Misplaced =>
          by_cases hji : j ≠ i
          · simp [hji]
          · simp [hji]
        | Wrong => rfl

/-- The checked outer loop of `matches` agrees with the unchecked one when the
zipped guess has at most 5 positions. -/
theorem outerLoopC_eq (gp : List (Nat × Correctness)) (hgp : gp.length ≤ 5) :
    ∀ (ts : List ((Nat × Correctness) × Nat)) (i : Nat) (u : List Bool),
      i + ts.length ≤ 5 → outerLoopC gp ts i u = some (outerLoop gp ts i u) := by
  intro ts
  induction ts with
  | nil => intro i u _; rfl
  | cons t rest ih =>
    intro i u hle
    obtain ⟨⟨g, m⟩, w⟩ := t
    rw [List.length_cons] at hle
    have hi : i < 5 := by omega
    by_cases hm : m = Correctness.Correct
    · by_cases hwg : w ≠ g
      · simp only [outerLoopC, outerLoop, if_pos hm, if_pos hwg]
      · simp only [outerLoopC, outerLoop, if_pos hm, if_neg hwg, if_pos hi]
        exact ih (i + 1) _ (by omega)
    · simp only [outerLoopC, outerLoop, if_neg hm]
      rw [innerLoopC_eq i w u gp 0 (by omega)]
      cases hil : innerLoop i w u gp 0 with
      | reject => rfl
      | consumed u2 => exact ih (i + 1) u2 (by omega)
      | fallthrough => exact ih (i + 1) u (by omega)

/-- `matches` never indexes out of bounds for candidates of any length: with
the 5-slot mask invariant of `Guess`, the checked variant never panics and
agrees with the unchecked embedding. -/
theorem matchesChecked_eq (g : Guess) (c : Word) (hm : g.mask.length = 5) :
    Guess.matchesChecked g c = some (g.matches c) := by
  have hgp : (g.word.zip g.mask).length ≤ 5 := by
    rw [List.length_zip, hm]; omega
  have hts : ((g.word.zip g.mask).zip c).length ≤ 5 := by
    rw [List.length_zip, List.length_zip, hm]; omega
  simp only [Guess.matchesChecked, Guess.matches]
  rw [outerLoopC_eq (g.word.zip g.mask) hgp ((g.word.zip g.mask).zip c) 0
    (List.replicate 5 false) (by omega)]
  cases houter : outerLoop (g.word.zip g.mask) ((g.word.zip g.mask).zip c) 0
      (List.replicate 5 false) with
  | none => rfl
  | some used => rfl

/-- C10 counterexample: `compute` is not fully zipped.  Its second pass reads
`c[i]` at every word position, so a 6-letter word against a 6-letter answer
panics (`none`); and for a word longer than the answer the extra word
positions are not ignored — position 2 here is marked `Misplaced`, not left
`Wrong`. -/
theorem claim_C10_counterexample :
    Correctness.computeChecked (List.replicate 6 97) (List.replicate 6 97) = none ∧
    (Correctness.compute [97, 98] [120, 120, 98]).getD 2 Correctness.Wrong
      = Correctness.Misplaced := by
  decide

/-- C10 amended: `compute` is panic-free only for inputs of at most 5 letters
(where the checked and unchecked embeddings agree), while `matches` is
panic-free for candidates of any length given the 5-slot mask invariant. -/
theorem claim_C10_amended (answer word : Word) (g : Guess) (c : Word)
    (ha : answer.length ≤ 5) (hw : word.length ≤ 5) (hm : g.mask.length = 5) :
    Correctness.computeChecked answer word = some (Correctness.compute answer word) ∧
    Guess.matchesChecked g c = some (g.matches c) :=
  ⟨computeChecked_eq answer word ha hw, matchesChecked_eq g c hm⟩

/-- Witness for C10 at answer "islet", word "tares", and the resulting guess
checked against the candidate "islet". -/
theorem claim_C10_witness :
    Correctness.computeChecked isletW taresW
      = some (Correctness.compute isletW taresW) ∧
    Guess.matchesChecked (Guess.check isletW taresW) isletW
      = some ((Guess.check isletW taresW).matches isletW) :=
  claim_C10_amended isletW taresW (Guess.check isletW taresW) isletW
    (by decide) (by decide) (by decide)
